import Mathlib

/-!
# Verification development for the DistKV key-value store (`src/kvstore.rs`)

Shallow embedding of the core of DistKV: an in-memory `BTreeMap<String, serde_json::Value>`
together with the flat-file persistence codec (`read_kvstore` / `write_kvstore`) and the
store operations (`create_key`, `create_key_with_key`, `insert`, `get`, `delete`,
`list_keys`, `Clone`).

Modelling conventions:
* Rust `String`/`str` values are embedded as `List Char` (`Str`); Rust string
  ordering (byte-wise lexicographic on UTF-8) coincides with code-point
  lexicographic order, which is what `ltStr` implements.
* `serde_json::Value` is embedded as the inductive `Value`; numbers are modelled
  as mathematical integers (`Int`, covering the `i64` payloads the store round-trips;
  floating-point payloads are outside the model).
* `BTreeMap<String, Value>` is embedded as a key-sorted association list (`KVMap`)
  with the `SortedMap` invariant; `BTreeMap::insert/remove/get/contains_key/iter`
  become `insertSorted/eraseKey/lookupKey/containsKey` and plain list iteration.
* Byte sequences are `List Nat` with every byte `< 256`.
* The persistence file is embedded as the character sequence the process would
  write; file-system failures (`StorageIO`) are outside the model.
* Randomness (`thread_rng` sampled through the `Alphanumeric` distribution) is
  embedded as an oracle stream of candidate keys, with the distribution's
  guarantee (8 alphanumeric characters per sample) as a hypothesis.
-/

namespace DistKV

/-- Rust strings, embedded as their character sequences. -/
abbrev Str := List Char

/-- `serde_json::Value`: null, booleans, numbers (modelled as `Int`), strings,
arrays, and objects (association lists in `BTreeMap` iteration order). -/
inductive Value where
  | null : Value
  | bool (b : Bool) : Value
  | num (n : Int) : Value
  | str (s : Str) : Value
  | arr (xs : List Value) : Value
  | obj (ms : List (Str × Value)) : Value

mutual

/-- Boolean structural equality on `Value` (the derive handler does not support
this nested inductive, so the instance is built by hand). -/
def beqValue : Value → Value → Bool
  | .null, .null => true
  | .bool x, .bool y => x == y
  | .num x, .num y => x == y
  | .str x, .str y => x == y
  | .arr xs, .arr ys => beqValueList xs ys
  | .obj ms, .obj ns => beqMembers ms ns
  | _, _ => false

def beqValueList : List Value → List Value → Bool
  | [], [] => true
  | x :: xs, y :: ys => beqValue x y && beqValueList xs ys
  | _, _ => false

def beqMembers : List (Str × Value) → List (Str × Value) → Bool
  | [], [] => true
  | (k₁, v₁) :: ms, (k₂, v₂) :: ns => k₁ == k₂ && beqValue v₁ v₂ && beqMembers ms ns
  | _, _ => false

end

mutual

theorem beqValue_iff : ∀ a b : Value, beqValue a b = true ↔ a = b
  | .null, .null => by simp [beqValue]
  | .bool x, .bool y => by simp [beqValue]
  | .num x, .num y => by simp [beqValue]
  | .str x, .str y => by simp [beqValue]
  | .arr xs, .arr ys => by
    simpa [beqValue] using beqValueList_iff xs ys
  | .obj ms, .obj ns => by
    simpa [beqValue] using beqMembers_iff ms ns
  | .null, .bool _ | .null, .num _ | .null, .str _ | .null, .arr _ | .null, .obj _
  | .bool _, .null | .bool _, .num _ | .bool _, .str _ | .bool _, .arr _ | .bool _, .obj _
  | .num _, .null | .num _, .bool _ | .num _, .str _ | .num _, .arr _ | .num _, .obj _
  | .str _, .null | .str _, .bool _ | .str _, .num _ | .str _, .arr _ | .str _, .obj _
  | .arr _, .null | .arr _, .bool _ | .arr _, .num _ | .arr _, .str _ | .arr _, .obj _
  | .obj _, .null | .obj _, .bool _ | .obj _, .num _ | .obj _, .str _ | .obj _, .arr _ => by
    simp [beqValue]

theorem beqValueList_iff : ∀ xs ys : List Value, beqValueList xs ys = true ↔ xs = ys
  | [], [] => by simp [beqValueList]
  | x :: xs, y :: ys => by
    simp [beqValueList, beqValue_iff x y, beqValueList_iff xs ys]
  | [], _ :: _ => by simp [beqValueList]
  | _ :: _, [] => by simp [beqValueList]

theorem beqMembers_iff : ∀ ms ns : List (Str × Value), beqMembers ms ns = true ↔ ms = ns
  | [], [] => by simp [beqMembers]
  | (k₁, v₁) :: ms, (k₂, v₂) :: ns => by
    simp [beqMembers, beqValue_iff v₁ v₂, beqMembers_iff ms ns, and_assoc]
  | [], _ :: _ => by simp [beqMembers]
  | _ :: _, [] => by simp [beqMembers]

end

instance : DecidableEq Value := fun a b => decidable_of_iff _ (beqValue_iff a b)

/-- Strict lexicographic order on strings (byte order of Rust `String` keys in a
`BTreeMap`; UTF-8 byte order agrees with code-point order). -/
def ltStr : Str → Str → Bool
  | [], [] => false
  | [], _ :: _ => true
  | _ :: _, [] => false
  | a :: as, b :: bs =>
    if a.toNat < b.toNat then true
    else if b.toNat < a.toNat then false
    else ltStr as bs

theorem ltStr_irrefl (s : Str) : ltStr s s = false := by
  induction s with
  | nil => rfl
  | cons a as ih => simp [ltStr, ih]

theorem charToNat_inj {a b : Char} (h : a.toNat = b.toNat) : a = b := by
  calc a = Char.ofNat a.toNat := (Char.ofNat_toNat a).symm
    _ = Char.ofNat b.toNat := by rw [h]
    _ = b := Char.ofNat_toNat b

theorem ltStr_trans {a b c : Str} (h₁ : ltStr a b = true) (h₂ : ltStr b c = true) :
    ltStr a c = true := by
  induction a generalizing b c with
  | nil =>
    cases b with
    | nil => simp [ltStr] at h₁
    | cons y ys =>
      cases c with
      | nil => simp [ltStr] at h₂
      | cons z zs => rfl
  | cons x xs ih =>
    cases b with
    | nil => simp [ltStr] at h₁
    | cons y ys =>
      cases c with
      | nil => simp [ltStr] at h₂
      | cons z zs =>
        simp only [ltStr] at h₁ h₂ ⊢
        split at h₁
        · -- x < y
          rename_i hxy
          split at h₂
          · rename_i hyz
            simp [show x.toNat < z.toNat by omega]
          · split at h₂
            · exact absurd h₂ (by simp)
            · rename_i hzy hyz
              have : y.toNat = z.toNat := by omega
              simp [show x.toNat < z.toNat by omega]
        · split at h₁
          · exact absurd h₁ (by simp)
          · rename_i hxy hyx
            have hxye : x.toNat = y.toNat := by omega
            split at h₂
            · rename_i hyz
              simp [show x.toNat < z.toNat by omega]
            · split at h₂
              · exact absurd h₂ (by simp)
              · rename_i hzy hyz
                have hyze : y.toNat = z.toNat := by omega
                have hxz : ¬ x.toNat < z.toNat := by omega
                have hzx : ¬ z.toNat < x.toNat := by omega
                simp only [hxz, if_false, hzx]
                exact ih h₁ h₂

theorem ltStr_total {a b : Str} (h₁ : ltStr a b = false) (h₂ : ltStr b a = false) :
    a = b := by
  induction a generalizing b with
  | nil =>
    cases b with
    | nil => rfl
    | cons y ys => simp [ltStr] at h₁
  | cons x xs ih =>
    cases b with
    | nil => simp [ltStr] at h₂
    | cons y ys =>
      simp only [ltStr] at h₁ h₂
      split at h₁
      · exact absurd h₁ (by simp)
      · split at h₁
        · rename_i hxy hyx
          simp only [hyx, if_true] at h₂
          exact absurd h₂ (by simp)
        · rename_i hxy hyx
          have : x = y := charToNat_inj (by omega)
          subst this
          simp only [lt_irrefl, if_false] at h₂
          rw [ih h₁ h₂]

theorem ltStr_trichotomy (a b : Str) :
    ltStr a b = true ∨ a = b ∨ ltStr b a = true := by
  rcases h₁ : ltStr a b with _ | _
  · rcases h₂ : ltStr b a with _ | _
    · exact Or.inr (Or.inl (ltStr_total h₁ h₂))
    · exact Or.inr (Or.inr rfl)
  · exact Or.inl rfl

theorem ltStr_asymm {a b : Str} (h : ltStr a b = true) : ltStr b a = false := by
  rcases hba : ltStr b a with _ | _
  · rfl
  · have := ltStr_trans h hba
    rw [ltStr_irrefl] at this
    exact absurd this (by simp)

theorem ltStr_ne {a b : Str} (h : ltStr a b = true) : a ≠ b := by
  intro he
  subst he
  rw [ltStr_irrefl] at h
  exact absurd h (by simp)

/-! ## The in-memory map

`BTreeMap<String, serde_json::Value>` embedded as a key-sorted association list.
`insertSorted`, `eraseKey`, `lookupKey`, `containsKey` mirror `BTreeMap::insert`,
`::remove`, `::get`, `::contains_key`; iteration in key order is plain list
traversal. `SortedMap` is the representation invariant `BTreeMap` maintains. -/

/-- The store's map: association list in strictly ascending key order. -/
abbrev KVMap := List (Str × Value)

/-- `BTreeMap::get`. -/
def lookupKey (k : Str) : KVMap → Option Value
  | [] => none
  | (k', v) :: rest => if k = k' then some v else lookupKey k rest

/-- `BTreeMap::contains_key`. -/
def containsKey (k : Str) (m : KVMap) : Bool :=
  (lookupKey k m).isSome

/-- `BTreeMap::insert`: insert or overwrite, keeping keys sorted. -/
def insertSorted (k : Str) (v : Value) : KVMap → KVMap
  | [] => [(k, v)]
  | (k', v') :: rest =>
    if ltStr k k' then (k, v) :: (k', v') :: rest
    else if k = k' then (k, v) :: rest
    else (k', v') :: insertSorted k v rest

/-- `BTreeMap::remove` (ignoring the returned old value). -/
def eraseKey (k : Str) : KVMap → KVMap
  | [] => []
  | (k', v') :: rest => if k = k' then rest else (k', v') :: eraseKey k rest

/-- The `BTreeMap` representation invariant: keys strictly ascending. -/
def SortedMap (m : KVMap) : Prop :=
  List.Pairwise (fun a b : Str × Value => ltStr a.1 b.1 = true) m

instance : DecidablePred SortedMap := fun m =>
  inferInstanceAs (Decidable (List.Pairwise _ m))

theorem lookupKey_insertSorted_self (k : Str) (v : Value) (m : KVMap) :
    lookupKey k (insertSorted k v m) = some v := by
  induction m with
  | nil => simp [insertSorted, lookupKey]
  | cons p rest ih =>
    obtain ⟨k', v'⟩ := p
    by_cases hlt : ltStr k k' = true
    · simp [insertSorted, hlt, lookupKey]
    · by_cases he : k = k'
      · subst he
        simp [insertSorted, hlt, lookupKey]
      · simp [insertSorted, hlt, he, lookupKey, ih]

theorem lookupKey_insertSorted_ne (k k' : Str) (v : Value) (m : KVMap)
    (h : k' ≠ k) : lookupKey k' (insertSorted k v m) = lookupKey k' m := by
  induction m with
  | nil => simp [insertSorted, lookupKey, h]
  | cons p rest ih =>
    obtain ⟨k₀, v₀⟩ := p
    by_cases hlt : ltStr k k₀ = true
    · simp [insertSorted, hlt, lookupKey, h]
    · by_cases he : k = k₀
      · subst he
        simp [insertSorted, hlt, lookupKey, h]
      · by_cases he' : k' = k₀
        · simp [insertSorted, hlt, he, lookupKey, he']
        · simp [insertSorted, hlt, he, lookupKey, he', ih]

theorem keys_nodup_of_sorted {m : KVMap} (h : SortedMap m) :
    List.Pairwise (fun a b : Str × Value => a.1 ≠ b.1) m :=
  h.imp fun hab => ltStr_ne hab

theorem lookupKey_none_of_all_gt {k : Str} {m : KVMap}
    (h : ∀ p ∈ m, ltStr k p.1 = true) : lookupKey k m = none := by
  induction m with
  | nil => rfl
  | cons q qs ih =>
    obtain ⟨kq, vq⟩ := q
    have hne : k ≠ kq := ltStr_ne (h (kq, vq) (by simp))
    simp only [lookupKey, if_neg hne]
    exact ih fun p hp => h p (by simp [hp])

theorem lookupKey_eraseKey_self {k : Str} {m : KVMap} (h : SortedMap m) :
    lookupKey k (eraseKey k m) = none := by
  induction m with
  | nil => simp [eraseKey, lookupKey]
  | cons p rest ih =>
    obtain ⟨k₀, v₀⟩ := p
    rw [SortedMap, List.pairwise_cons] at h
    by_cases he : k = k₀
    · subst he
      rw [eraseKey, if_pos rfl]
      exact lookupKey_none_of_all_gt h.1
    · rw [eraseKey, if_neg he, lookupKey, if_neg he]
      exact ih h.2

theorem lookupKey_eraseKey_ne (k k' : Str) (m : KVMap) (h : k' ≠ k) :
    lookupKey k' (eraseKey k m) = lookupKey k' m := by
  induction m with
  | nil => simp [eraseKey]
  | cons p rest ih =>
    obtain ⟨k₀, v₀⟩ := p
    by_cases he : k = k₀
    · subst he
      simp [eraseKey, lookupKey, if_neg h]
    · by_cases he' : k' = k₀
      · simp [eraseKey, if_neg he, lookupKey, he']
      · simp [eraseKey, if_neg he, lookupKey, he', ih]

theorem mem_insertSorted {q : Str × Value} {k : Str} {v : Value} {m : KVMap}
    (h : q ∈ insertSorted k v m) : q = (k, v) ∨ q ∈ m := by
  induction m with
  | nil => simpa [insertSorted] using h
  | cons p rest ih =>
    obtain ⟨k₀, v₀⟩ := p
    by_cases hlt : ltStr k k₀ = true
    · rw [insertSorted, if_pos hlt] at h
      rcases List.mem_cons.1 h with h | h
      · exact Or.inl h
      · exact Or.inr h
    · by_cases he : k = k₀
      · rw [insertSorted, if_neg hlt, if_pos he] at h
        rcases List.mem_cons.1 h with h | h
        · exact Or.inl h
        · exact Or.inr (by simp [h])
      · rw [insertSorted, if_neg hlt, if_neg he] at h
        rcases List.mem_cons.1 h with h | h
        · exact Or.inr (by simp [h])
        · rcases ih h with h' | h'
          · exact Or.inl h'
          · exact Or.inr (by simp [h'])

theorem eraseKey_subset {q : Str × Value} {k : Str} {m : KVMap}
    (h : q ∈ eraseKey k m) : q ∈ m := by
  induction m with
  | nil => simp [eraseKey] at h
  | cons p rest ih =>
    obtain ⟨k₀, v₀⟩ := p
    by_cases he : k = k₀
    · rw [eraseKey, if_pos he] at h
      exact List.mem_cons_of_mem _ h
    · rw [eraseKey, if_neg he] at h
      rcases List.mem_cons.1 h with h | h
      · simp [h]
      · exact List.mem_cons_of_mem _ (ih h)

theorem insertSorted_sorted {m : KVMap} (k : Str) (v : Value) (h : SortedMap m) :
    SortedMap (insertSorted k v m) := by
  induction m with
  | nil => simp [insertSorted, SortedMap]
  | cons p rest ih =>
    obtain ⟨k₀, v₀⟩ := p
    rw [SortedMap, List.pairwise_cons] at h
    by_cases hlt : ltStr k k₀ = true
    · rw [insertSorted, if_pos hlt]
      refine List.pairwise_cons.2 ⟨?_, List.pairwise_cons.2 ⟨h.1, h.2⟩⟩
      intro q hq
      rcases List.mem_cons.1 hq with hq | hq
      · simpa [hq] using hlt
      · exact ltStr_trans hlt (h.1 _ hq)
    · by_cases he : k = k₀
      · subst he
        rw [insertSorted, if_neg hlt, if_pos rfl]
        exact List.pairwise_cons.2 ⟨h.1, h.2⟩
      · rw [insertSorted, if_neg hlt, if_neg he]
        refine List.pairwise_cons.2 ⟨?_, ih h.2⟩
        intro q hq
        have hk₀k : ltStr k₀ k = true := by
          rcases ltStr_trichotomy k k₀ with h' | h' | h'
          · exact absurd h' hlt
          · exact absurd h' he
          · exact h'
        -- q is either in rest (ordered after k₀) or is the inserted (k, v)
        have hmem := mem_insertSorted hq
        rcases hmem with rfl | hq'
        · exact hk₀k
        · exact h.1 _ hq'

theorem eraseKey_sorted {m : KVMap} (k : Str) (h : SortedMap m) :
    SortedMap (eraseKey k m) := by
  induction m with
  | nil => simpa [eraseKey] using h
  | cons p rest ih =>
    obtain ⟨k₀, v₀⟩ := p
    rw [SortedMap, List.pairwise_cons] at h
    by_cases he : k = k₀
    · simpa [eraseKey, he] using h.2
    · rw [eraseKey, if_neg he]
      refine List.pairwise_cons.2 ⟨?_, ih h.2⟩
      intro q hq
      exact h.1 _ (eraseKey_subset hq)

/-! ## String splitting primitives

Embeddings of the `str` methods `read_kvstore` and `write_kvstore` use:
`str::split` on a one-character pattern, `str::lines`, and
`str::replace("|", "\\|")`. -/

/-- `str::split(c)`: all segments between occurrences of `c` (always non-empty
as a list; an input without `c` yields the single segment equal to the input). -/
def splitOnChar (c : Char) : Str → List Str
  | [] => [[]]
  | x :: xs =>
    if x = c then [] :: splitOnChar c xs
    else
      match splitOnChar c xs with
      | s :: ss => (x :: s) :: ss
      | [] => [[x]]

/-- Strip one trailing carriage return (the `\r` of a `\r\n` line ending). -/
def stripCR (l : Str) : Str :=
  if l.getLast? = some '\r' then l.dropLast else l

/-- `str::lines`: split at `\n`, treating `\r\n` as a line ending as well; a
final segment not terminated by `\n` is kept verbatim, and a trailing line
terminator produces no final empty line. -/
def rustLines (s : Str) : List Str :=
  let parts := splitOnChar '\n' s
  parts.dropLast.map stripCR ++
    (match parts.getLast? with
     | some [] => []
     | some l => [l]
     | none => [])

/-- The `key`/`raw_value` halves taken by `read_kvstore`: the first two
segments of `line.split("|")` (`kv.next().unwrap()` and
`kv.next().unwrap_or("")`). -/
def lineSegs (line : Str) : Str × Str :=
  match splitOnChar '|' line with
  | [] => ([], [])
  | [k] => (k, [])
  | k :: v :: _ => (k, v)

/-- `String::replace("|", "\\|")` as applied by `write_kvstore` to the base64
payload. -/
def escapePipes : Str → Str
  | [] => []
  | c :: rest => if c = '|' then '\\' :: '|' :: escapePipes rest else c :: escapePipes rest

theorem splitOnChar_ne_nil (c : Char) (s : Str) : splitOnChar c s ≠ [] := by
  cases s with
  | nil => simp [splitOnChar]
  | cons x xs =>
    rw [splitOnChar]
    split
    · simp
    · split <;> simp

theorem splitOnChar_not_mem {c : Char} {s : Str} (h : c ∉ s) :
    splitOnChar c s = [s] := by
  induction s with
  | nil => rfl
  | cons x xs ih =>
    have hx : x ≠ c := fun he => h (by simp [he])
    have hxs : c ∉ xs := fun hm => h (by simp [hm])
    rw [splitOnChar, if_neg hx, ih hxs]

theorem splitOnChar_append {c : Char} {l : Str} (rest : Str) (h : c ∉ l) :
    splitOnChar c (l ++ c :: rest) = l :: splitOnChar c rest := by
  induction l with
  | nil => simp [splitOnChar]
  | cons x xs ih =>
    have hx : x ≠ c := fun he => h (by simp [he])
    have hxs : c ∉ xs := fun hm => h (by simp [hm])
    rw [List.cons_append, splitOnChar, if_neg hx, ih hxs]

theorem escapePipes_no_pipe {l : Str} (h : '|' ∉ l) : escapePipes l = l := by
  induction l with
  | nil => rfl
  | cons x xs ih =>
    have hx : x ≠ '|' := fun he => h (by simp [he])
    have hxs : '|' ∉ xs := fun hm => h (by simp [hm])
    rw [escapePipes, if_neg hx, ih hxs]

theorem stripCR_of_getLast_ne {l : Str} (h : l.getLast? ≠ some '\r') :
    stripCR l = l := by
  rw [stripCR, if_neg h]

/-- `str::lines` of a concatenation of `\n`-terminated lines, none of which
contains `\n` or ends in `\r`, is exactly the list of those lines. -/
theorem rustLines_join {lines : List Str}
    (hn : ∀ l ∈ lines, ('\n' : Char) ∉ l)
    (hr : ∀ l ∈ lines, l.getLast? ≠ some '\r') :
    rustLines ((lines.map (· ++ ['\n'])).flatten) = lines := by
  have hsplit : splitOnChar '\n' ((lines.map (· ++ ['\n'])).flatten) = lines ++ [[]] := by
    induction lines with
    | nil => simp [splitOnChar]
    | cons l ls ih =>
      have h₁ : ('\n' : Char) ∉ l := hn l (by simp)
      rw [List.map_cons, List.flatten_cons, List.append_assoc, List.singleton_append,
        splitOnChar_append _ h₁]
      rw [ih (fun x hx => hn x (by simp [hx])) (fun x hx => hr x (by simp [hx]))]
      simp
  rw [rustLines, hsplit]
  have hdrop : (lines ++ [([] : Str)]).dropLast = lines := by
    simp
  have hlast : (lines ++ [([] : Str)]).getLast? = some [] := by
    simp
  rw [hdrop, hlast]
  simp only [List.append_nil]
  calc lines.map stripCR = lines.map id :=
        List.map_congr_left fun l hl => stripCR_of_getLast_ne (hr l hl)
    _ = lines := List.map_id lines

/-! ## Base64 (the `base64` crate: `encode` / `decode`, standard alphabet,
padded output; decoding accepts a final unpadded chunk, rejects characters
outside the alphabet, misplaced padding, non-canonical trailing bits, and
inputs of length `4k+1`). Bytes are `Nat` values below 256. -/

/-- Value of one sextet as a standard-alphabet base64 character. -/
def b64EncChar (n : Nat) : Char :=
  if n < 26 then Char.ofNat (65 + n)
  else if n < 52 then Char.ofNat (97 + n - 26)
  else if n < 62 then Char.ofNat (48 + n - 52)
  else if n = 62 then '+'
  else '/'

/-- Inverse of the standard alphabet; `none` for characters outside it
(including `=`). -/
def b64DecChar (c : Char) : Option Nat :=
  if 65 ≤ c.toNat ∧ c.toNat ≤ 90 then some (c.toNat - 65)
  else if 97 ≤ c.toNat ∧ c.toNat ≤ 122 then some (c.toNat - 97 + 26)
  else if 48 ≤ c.toNat ∧ c.toNat ≤ 57 then some (c.toNat - 48 + 52)
  else if c = '+' then some 62
  else if c = '/' then some 63
  else none

/-- `base64::encode`: three bytes to four characters, padding the final chunk. -/
def base64Encode : List Nat → Str
  | [] => []
  | [a] => [b64EncChar (a / 4), b64EncChar (a % 4 * 16), '=', '=']
  | [a, b] => [b64EncChar (a / 4), b64EncChar (a % 4 * 16 + b / 16), b64EncChar (b % 16 * 4), '=']
  | a :: b :: c :: rest =>
    b64EncChar (a / 4) :: b64EncChar (a % 4 * 16 + b / 16) ::
      b64EncChar (b % 16 * 4 + c / 64) :: b64EncChar (c % 64) :: base64Encode rest

/-- Decode a final two-character chunk (one byte). -/
def b64DecFinal2 (c₁ c₂ : Char) : Option (List Nat) := do
  let n₁ ← b64DecChar c₁
  let n₂ ← b64DecChar c₂
  if n₂ % 16 = 0 then some [n₁ * 4 + n₂ / 16] else none

/-- Decode a final three-character chunk (two bytes). -/
def b64DecFinal3 (c₁ c₂ c₃ : Char) : Option (List Nat) := do
  let n₁ ← b64DecChar c₁
  let n₂ ← b64DecChar c₂
  let n₃ ← b64DecChar c₃
  if n₃ % 4 = 0 then some [n₁ * 4 + n₂ / 16, n₂ % 16 * 16 + n₃ / 4] else none

/-- Decode a final four-character chunk, which may carry padding. -/
def b64DecFinal4 (c₁ c₂ c₃ c₄ : Char) : Option (List Nat) :=
  if c₃ = '=' then
    if c₄ = '=' then b64DecFinal2 c₁ c₂ else none
  else if c₄ = '=' then b64DecFinal3 c₁ c₂ c₃
  else do
    let n₁ ← b64DecChar c₁
    let n₂ ← b64DecChar c₂
    let n₃ ← b64DecChar c₃
    let n₄ ← b64DecChar c₄
    some [n₁ * 4 + n₂ / 16, n₂ % 16 * 16 + n₃ / 4, n₃ % 4 * 64 + n₄]

/-- Decode a non-final four-character group and prepend its three bytes. -/
def b64DecGroup (c₁ c₂ c₃ c₄ : Char) (tail : Option (List Nat)) : Option (List Nat) := do
  let n₁ ← b64DecChar c₁
  let n₂ ← b64DecChar c₂
  let n₃ ← b64DecChar c₃
  let n₄ ← b64DecChar c₄
  let t ← tail
  some ((n₁ * 4 + n₂ / 16) :: (n₂ % 16 * 16 + n₃ / 4) :: (n₃ % 4 * 64 + n₄) :: t)

/-- `base64::decode`. -/
def base64Decode : Str → Option (List Nat)
  | [] => some []
  | [c₁, c₂] => b64DecFinal2 c₁ c₂
  | [c₁, c₂, c₃] => b64DecFinal3 c₁ c₂ c₃
  | c₁ :: c₂ :: c₃ :: c₄ :: rest =>
    if rest.isEmpty then b64DecFinal4 c₁ c₂ c₃ c₄
    else b64DecGroup c₁ c₂ c₃ c₄ (base64Decode rest)
  | [_] => none

theorem b64DecChar_encChar_all : ∀ n, n < 64 → b64DecChar (b64EncChar n) = some n := by
  decide

theorem b64DecChar_encChar {n : Nat} (h : n < 64) : b64DecChar (b64EncChar n) = some n :=
  b64DecChar_encChar_all n h

theorem b64EncChar_ne_all : ∀ n, n < 64 →
    b64EncChar n ≠ '=' ∧ b64EncChar n ≠ '|' ∧ b64EncChar n ≠ '\n' ∧
      b64EncChar n ≠ '"' ∧ b64EncChar n ≠ '\r' := by
  decide

/-- Characters of an encoding of bytes: either padding or an alphabet character. -/
theorem base64Encode_chars {bs : List Nat} {c : Char} (h : ∀ b ∈ bs, b < 256)
    (hc : c ∈ base64Encode bs) : c = '=' ∨ ∃ n, n < 64 ∧ c = b64EncChar n := by
  induction bs using base64Encode.induct with
  | case1 => simp [base64Encode] at hc
  | case2 a =>
    have ha : a < 256 := h a (by simp)
    simp only [base64Encode, List.mem_cons, List.not_mem_nil, or_false] at hc
    rcases hc with rfl | rfl | rfl | rfl
    · exact Or.inr ⟨a / 4, by omega, rfl⟩
    · exact Or.inr ⟨a % 4 * 16, by omega, rfl⟩
    · exact Or.inl rfl
    · exact Or.inl rfl
  | case3 a b =>
    have ha : a < 256 := h a (by simp)
    have hb : b < 256 := h b (by simp)
    simp only [base64Encode, List.mem_cons, List.not_mem_nil, or_false] at hc
    rcases hc with rfl | rfl | rfl | rfl
    · exact Or.inr ⟨a / 4, by omega, rfl⟩
    · exact Or.inr ⟨a % 4 * 16 + b / 16, by omega, rfl⟩
    · exact Or.inr ⟨b % 16 * 4, by omega, rfl⟩
    · exact Or.inl rfl
  | case4 a b c' rest ih =>
    have ha : a < 256 := h a (by simp)
    have hb : b < 256 := h b (by simp)
    have hc' : c' < 256 := h c' (by simp)
    simp only [base64Encode, List.mem_cons] at hc
    rcases hc with rfl | rfl | rfl | rfl | hmem
    · exact Or.inr ⟨a / 4, by omega, rfl⟩
    · exact Or.inr ⟨a % 4 * 16 + b / 16, by omega, rfl⟩
    · exact Or.inr ⟨b % 16 * 4 + c' / 64, by omega, rfl⟩
    · exact Or.inr ⟨c' % 64, by omega, rfl⟩
    · exact ih (fun x hx => h x (by simp [hx])) hmem

theorem base64Encode_no_specials {bs : List Nat} {c : Char} (h : ∀ b ∈ bs, b < 256)
    (hc : c ∈ base64Encode bs) : c ≠ '|' ∧ c ≠ '\n' ∧ c ≠ '"' ∧ c ≠ '\r' := by
  rcases base64Encode_chars h hc with rfl | ⟨n, hn, rfl⟩
  · refine ⟨by decide, by decide, by decide, by decide⟩
  · have := b64EncChar_ne_all n hn
    exact ⟨this.2.1, this.2.2.1, this.2.2.2.1, this.2.2.2.2⟩

theorem base64Encode_ne_nil {bs : List Nat} (h : bs ≠ []) : base64Encode bs ≠ [] := by
  match bs with
  | [] => exact absurd rfl h
  | [a] => simp [base64Encode]
  | [a, b] => simp [base64Encode]
  | a :: b :: c :: rest => simp [base64Encode]

/-- Round-trip: decoding an encoding recovers the bytes (for genuine bytes). -/
theorem base64Decode_encode {bs : List Nat} (h : ∀ b ∈ bs, b < 256) :
    base64Decode (base64Encode bs) = some bs := by
  induction bs using base64Encode.induct with
  | case1 => simp [base64Encode, base64Decode]
  | case2 a =>
    have ha : a < 256 := h a (by simp)
    have e₁ : b64DecChar (b64EncChar (a / 4)) = some (a / 4) :=
      b64DecChar_encChar (by omega)
    have e₂ : b64DecChar (b64EncChar (a % 4 * 16)) = some (a % 4 * 16) :=
      b64DecChar_encChar (by omega)
    have hb : a / 4 * 4 + a % 4 * 16 / 16 = a := by omega
    have hm : a % 4 * 16 % 16 = 0 := by omega
    simp only [base64Encode, base64Decode, List.isEmpty_nil, if_true, b64DecFinal4,
      if_pos rfl, b64DecFinal2, e₁, e₂]
    simp [hm]
    all_goals omega
  | case3 a b =>
    have ha : a < 256 := h a (by simp)
    have hb : b < 256 := h b (by simp)
    have e₁ : b64DecChar (b64EncChar (a / 4)) = some (a / 4) :=
      b64DecChar_encChar (by omega)
    have e₂ : b64DecChar (b64EncChar (a % 4 * 16 + b / 16)) = some (a % 4 * 16 + b / 16) :=
      b64DecChar_encChar (by omega)
    have e₃ : b64DecChar (b64EncChar (b % 16 * 4)) = some (b % 16 * 4) :=
      b64DecChar_encChar (by omega)
    have hne := (b64EncChar_ne_all (b % 16 * 4) (by omega)).1
    have r₁ : a / 4 * 4 + (a % 4 * 16 + b / 16) / 16 = a := by omega
    have r₂ : (a % 4 * 16 + b / 16) % 16 * 16 + b % 16 * 4 / 4 = b := by omega
    have hm : b % 16 * 4 % 4 = 0 := by omega
    simp only [base64Encode, base64Decode, List.isEmpty_nil, if_true, b64DecFinal4,
      if_neg hne, if_pos rfl, b64DecFinal3, e₁, e₂, e₃]
    simp [hm]
    all_goals omega
  | case4 a b c rest ih =>
    have ha : a < 256 := h a (by simp)
    have hb : b < 256 := h b (by simp)
    have hc : c < 256 := h c (by simp)
    have ihr := ih fun x hx => h x (by simp [hx])
    have e₁ : b64DecChar (b64EncChar (a / 4)) = some (a / 4) :=
      b64DecChar_encChar (by omega)
    have e₂ : b64DecChar (b64EncChar (a % 4 * 16 + b / 16)) = some (a % 4 * 16 + b / 16) :=
      b64DecChar_encChar (by omega)
    have e₃ : b64DecChar (b64EncChar (b % 16 * 4 + c / 64)) = some (b % 16 * 4 + c / 64) :=
      b64DecChar_encChar (by omega)
    have e₄ : b64DecChar (b64EncChar (c % 64)) = some (c % 64) :=
      b64DecChar_encChar (by omega)
    have r₁ : a / 4 * 4 + (a % 4 * 16 + b / 16) / 16 = a := by omega
    have r₂ : (a % 4 * 16 + b / 16) % 16 * 16 + (b % 16 * 4 + c / 64) / 4 = b := by omega
    have r₃ : (b % 16 * 4 + c / 64) % 4 * 64 + c % 64 = c := by omega
    rw [base64Encode]
    cases hre : base64Encode rest with
    | nil =>
      have hrest : rest = [] := by
        by_contra hne
        exact base64Encode_ne_nil hne hre
      subst hrest
      have h₃ := (b64EncChar_ne_all (b % 16 * 4 + c / 64) (by omega)).1
      have h₄ := (b64EncChar_ne_all (c % 64) (by omega)).1
      simp only [base64Decode, List.isEmpty_nil, if_true, b64DecFinal4, if_neg h₃, if_neg h₄,
        e₁, e₂, e₃, e₄]
      simp
      all_goals omega
    | cons hd tl =>
      rw [hre] at ihr
      rw [base64Decode, if_neg (by simp), b64DecGroup, e₁, e₂, e₃, e₄, ihr]
      simp
      all_goals omega

/-! ## UTF-8

`serde_json::to_string` produces a Rust `String` whose UTF-8 bytes are what
`base64::encode` consumes, and `serde_json::from_slice` parses UTF-8 bytes.
Standard UTF-8 encoding/decoding over `Nat` code points and bytes. -/

/-- UTF-8 encoding of one scalar value. -/
def utf8EncodeChar (c : Char) : List Nat :=
  if c.toNat < 0x80 then [c.toNat]
  else if c.toNat < 0x800 then [0xC0 + c.toNat / 64, 0x80 + c.toNat % 64]
  else if c.toNat < 0x10000 then
    [0xE0 + c.toNat / 4096, 0x80 + c.toNat / 64 % 64, 0x80 + c.toNat % 64]
  else
    [0xF0 + c.toNat / 262144, 0x80 + c.toNat / 4096 % 64,
      0x80 + c.toNat / 64 % 64, 0x80 + c.toNat % 64]

/-- UTF-8 encoding of a string. -/
def utf8Encode : Str → List Nat
  | [] => []
  | c :: s => utf8EncodeChar c ++ utf8Encode s

/-- Strict UTF-8 decoding: rejects stray/missing continuation bytes, overlong
forms, surrogates, and out-of-range code points. -/
def utf8Decode : List Nat → Option Str
  | [] => some []
  | b :: rest =>
    if b < 0x80 then
      (utf8Decode rest).map (fun s => Char.ofNat b :: s)
    else if b < 0xC0 then none
    else if b < 0xE0 then
      match rest with
      | [] => none
      | b₁ :: rest₁ =>
        if 0x80 ≤ b₁ ∧ b₁ < 0xC0 then
          if 0x80 ≤ (b - 0xC0) * 64 + (b₁ - 0x80) then
            (utf8Decode rest₁).map (fun s => Char.ofNat ((b - 0xC0) * 64 + (b₁ - 0x80)) :: s)
          else none
        else none
    else if b < 0xF0 then
      match rest with
      | [] => none
      | b₁ :: rest₁ =>
        match rest₁ with
        | [] => none
        | b₂ :: rest₂ =>
          if (0x80 ≤ b₁ ∧ b₁ < 0xC0) ∧ (0x80 ≤ b₂ ∧ b₂ < 0xC0) then
            if 0x800 ≤ (b - 0xE0) * 4096 + (b₁ - 0x80) * 64 + (b₂ - 0x80) ∧
                ((b - 0xE0) * 4096 + (b₁ - 0x80) * 64 + (b₂ - 0x80) < 0xD800 ∨
                  0xE000 ≤ (b - 0xE0) * 4096 + (b₁ - 0x80) * 64 + (b₂ - 0x80)) then
              (utf8Decode rest₂).map
                (fun s => Char.ofNat ((b - 0xE0) * 4096 + (b₁ - 0x80) * 64 + (b₂ - 0x80)) :: s)
            else none
          else none
    else if b < 0xF8 then
      match rest with
      | [] => none
      | b₁ :: rest₁ =>
        match rest₁ with
        | [] => none
        | b₂ :: rest₂ =>
          match rest₂ with
          | [] => none
          | b₃ :: rest₃ =>
            if (0x80 ≤ b₁ ∧ b₁ < 0xC0) ∧ (0x80 ≤ b₂ ∧ b₂ < 0xC0) ∧ (0x80 ≤ b₃ ∧ b₃ < 0xC0) then
              if 0x10000 ≤ (b - 0xF0) * 262144 + (b₁ - 0x80) * 4096 +
                    (b₂ - 0x80) * 64 + (b₃ - 0x80) ∧
                  (b - 0xF0) * 262144 + (b₁ - 0x80) * 4096 +
                    (b₂ - 0x80) * 64 + (b₃ - 0x80) < 0x110000 then
                (utf8Decode rest₃).map
                  (fun s => Char.ofNat
                    ((b - 0xF0) * 262144 + (b₁ - 0x80) * 4096 +
                      (b₂ - 0x80) * 64 + (b₃ - 0x80)) :: s)
              else none
            else none
    else none

/-- The code point of a character, as constrained by `Char`'s validity proof. -/
theorem char_toNat_valid (c : Char) :
    c.toNat < 0xD800 ∨ (0xDFFF < c.toNat ∧ c.toNat < 0x110000) :=
  c.valid

theorem char_toNat_ofNat {n : Nat} (h : n.isValidChar) : (Char.ofNat n).toNat = n := by
  rw [Char.ofNat, dif_pos h]
  rfl

theorem utf8EncodeChar_lt_256 {c : Char} {b : Nat} (hb : b ∈ utf8EncodeChar c) : b < 256 := by
  have hv := char_toNat_valid c
  rw [utf8EncodeChar] at hb
  by_cases h₁ : c.toNat < 0x80
  · rw [if_pos h₁] at hb
    simp only [List.mem_cons, List.not_mem_nil, or_false] at hb
    omega
  · rw [if_neg h₁] at hb
    by_cases h₂ : c.toNat < 0x800
    · rw [if_pos h₂] at hb
      simp only [List.mem_cons, List.not_mem_nil, or_false] at hb
      rcases hb with rfl | rfl <;> omega
    · rw [if_neg h₂] at hb
      by_cases h₃ : c.toNat < 0x10000
      · rw [if_pos h₃] at hb
        simp only [List.mem_cons, List.not_mem_nil, or_false] at hb
        rcases hb with rfl | rfl | rfl <;> omega
      · rw [if_neg h₃] at hb
        simp only [List.mem_cons, List.not_mem_nil, or_false] at hb
        rcases hb with rfl | rfl | rfl | rfl <;> omega

theorem utf8Encode_lt_256 {s : Str} {b : Nat} (hb : b ∈ utf8Encode s) : b < 256 := by
  induction s with
  | nil => simp [utf8Encode] at hb
  | cons c cs ih =>
    rw [utf8Encode] at hb
    rcases List.mem_append.1 hb with h | h
    · exact utf8EncodeChar_lt_256 h
    · exact ih h

set_option maxRecDepth 8000 in
/-- Decoding one encoded character at the head of a byte stream. -/
theorem utf8Decode_encodeChar (c : Char) (rest : List Nat) :
    utf8Decode (utf8EncodeChar c ++ rest) = (utf8Decode rest).map (fun s => c :: s) := by
  have hv := char_toNat_valid c
  have hofNat : Char.ofNat c.toNat = c := Char.ofNat_toNat c
  rw [utf8EncodeChar]
  by_cases h₁ : c.toNat < 0x80
  · rw [if_pos h₁, List.cons_append, List.nil_append, utf8Decode.eq_def]
    simp only [if_pos h₁, hofNat]
  · rw [if_neg h₁]
    by_cases h₂ : c.toNat < 0x800
    · rw [if_pos h₂]
      have c₁ : ¬(0xC0 + c.toNat / 64 < 0x80) := by omega
      have c₂ : ¬(0xC0 + c.toNat / 64 < 0xC0) := by omega
      have c₃ : 0xC0 + c.toNat / 64 < 0xE0 := by omega
      have c₄ : 0x80 ≤ 0x80 + c.toNat % 64 ∧ 0x80 + c.toNat % 64 < 0xC0 := by omega
      have e : (0xC0 + c.toNat / 64 - 0xC0) * 64 + (0x80 + c.toNat % 64 - 0x80) = c.toNat := by
        omega
      simp only [List.cons_append, List.nil_append]
      rw [utf8Decode.eq_def]
      simp only [if_neg c₁, if_neg c₂, if_pos c₃]
      rw [if_pos c₄, e, if_pos (by omega : 0x80 ≤ c.toNat), hofNat]
    · rw [if_neg h₂]
      by_cases h₃ : c.toNat < 0x10000
      · rw [if_pos h₃]
        have c₁ : ¬(0xE0 + c.toNat / 4096 < 0x80) := by omega
        have c₂ : ¬(0xE0 + c.toNat / 4096 < 0xC0) := by omega
        have c₃ : ¬(0xE0 + c.toNat / 4096 < 0xE0) := by omega
        have c₄ : 0xE0 + c.toNat / 4096 < 0xF0 := by omega
        have c₅ : (0x80 ≤ 0x80 + c.toNat / 64 % 64 ∧ 0x80 + c.toNat / 64 % 64 < 0xC0) ∧
            (0x80 ≤ 0x80 + c.toNat % 64 ∧ 0x80 + c.toNat % 64 < 0xC0) := by omega
        have e : (0xE0 + c.toNat / 4096 - 0xE0) * 4096 + (0x80 + c.toNat / 64 % 64 - 0x80) * 64 +
            (0x80 + c.toNat % 64 - 0x80) = c.toNat := by omega
        simp only [List.cons_append, List.nil_append]
        rw [utf8Decode.eq_def]
        simp only [if_neg c₁, if_neg c₂, if_neg c₃, if_pos c₄]
        rw [if_pos c₅, e,
          if_pos (by omega : 0x800 ≤ c.toNat ∧ (c.toNat < 0xD800 ∨ 0xE000 ≤ c.toNat)), hofNat]
      · rw [if_neg h₃]
        have c₁ : ¬(0xF0 + c.toNat / 262144 < 0x80) := by omega
        have c₂ : ¬(0xF0 + c.toNat / 262144 < 0xC0) := by omega
        have c₃ : ¬(0xF0 + c.toNat / 262144 < 0xE0) := by omega
        have c₄ : ¬(0xF0 + c.toNat / 262144 < 0xF0) := by omega
        have c₅ : 0xF0 + c.toNat / 262144 < 0xF8 := by omega
        have c₆ : (0x80 ≤ 0x80 + c.toNat / 4096 % 64 ∧ 0x80 + c.toNat / 4096 % 64 < 0xC0) ∧
            (0x80 ≤ 0x80 + c.toNat / 64 % 64 ∧ 0x80 + c.toNat / 64 % 64 < 0xC0) ∧
            (0x80 ≤ 0x80 + c.toNat % 64 ∧ 0x80 + c.toNat % 64 < 0xC0) := by omega
        have e : (0xF0 + c.toNat / 262144 - 0xF0) * 262144 +
            (0x80 + c.toNat / 4096 % 64 - 0x80) * 4096 +
            (0x80 + c.toNat / 64 % 64 - 0x80) * 64 + (0x80 + c.toNat % 64 - 0x80) = c.toNat := by
          omega
        simp only [List.cons_append, List.nil_append]
        rw [utf8Decode.eq_def]
        simp only [if_neg c₁, if_neg c₂, if_neg c₃, if_neg c₄, if_pos c₅]
        rw [if_pos c₆, e,
          if_pos (by omega : 0x10000 ≤ c.toNat ∧ c.toNat < 0x110000), hofNat]

/-- UTF-8 round-trip. -/
theorem utf8Decode_encode (s : Str) : utf8Decode (utf8Encode s) = some s := by
  induction s with
  | nil => rfl
  | cons c cs ih =>
    rw [utf8Encode, utf8Decode_encodeChar, ih]
    rfl

/-! ## JSON numbers

`serde_json::to_string` writes `i64` values in decimal with a leading `-` for
negatives; the parser reads an optional sign and a digit run. (Fractions and
exponents, i.e. floating-point payloads, are outside the model.) -/

/-- The decimal digit character for `d < 10`. -/
def digitChar (d : Nat) : Char := Char.ofNat (48 + d)

/-- Lowercase hexadecimal digit character for `d < 16` (as in serde_json's
escape table). -/
def hexDigitChar (d : Nat) : Char :=
  if d < 10 then Char.ofNat (48 + d) else Char.ofNat (87 + d)

/-- Decimal digits of a natural number, most significant first. -/
def natToDigits (n : Nat) : Str :=
  if h : n < 10 then [digitChar n]
  else natToDigits (n / 10) ++ [digitChar (n % 10)]
  termination_by n
  decreasing_by omega

/-- Decimal representation of an integer (`i64` via `itoa`). -/
def intToChars (i : Int) : Str :=
  if i < 0 then '-' :: natToDigits (-i).toNat else natToDigits i.toNat

/-- Parse a run of decimal digits into a natural number. -/
def parseNat (l : Str) : Option (Nat × Str) :=
  if l.takeWhile (fun c => c.isDigit) = [] then none
  else
    some ((l.takeWhile (fun c => c.isDigit)).foldl (fun a c => a * 10 + (c.toNat - 48)) 0,
      l.dropWhile (fun c => c.isDigit))

/-- Parse a JSON number (integer part only; see the section comment). -/
def parseNumber (l : Str) : Option (Value × Str) :=
  match l with
  | c :: rest =>
    if c = '-' then (parseNat rest).map (fun p => (Value.num (-(p.1 : Int)), p.2))
    else (parseNat l).map (fun p => (Value.num (p.1 : Int), p.2))
  | [] => none

/-- The first input character is not a decimal digit (vacuous for empty input);
the boundary condition under which a parsed number ends. -/
def headNotDigit : Str → Prop
  | [] => True
  | c :: _ => c.isDigit = false

theorem digitChar_toNat {d : Nat} (h : d < 10) : (digitChar d).toNat = 48 + d :=
  char_toNat_ofNat (Or.inl (by omega))

theorem digitChar_isDigit_all : ∀ d, d < 10 → (digitChar d).isDigit = true := by
  decide

theorem natToDigits_all_digit {n : Nat} {c : Char} (hc : c ∈ natToDigits n) :
    c.isDigit = true := by
  induction n using natToDigits.induct with
  | case1 n h =>
    rw [natToDigits, dif_pos h] at hc
    simp only [List.mem_singleton] at hc
    subst hc
    exact digitChar_isDigit_all n h
  | case2 n h ih =>
    rw [natToDigits, dif_neg h] at hc
    rcases List.mem_append.1 hc with h' | h'
    · exact ih h'
    · simp only [List.mem_singleton] at h'
      subst h'
      exact digitChar_isDigit_all _ (by omega)

theorem natToDigits_ne_nil (n : Nat) : natToDigits n ≠ [] := by
  rw [natToDigits]
  split <;> simp

theorem natToDigits_foldl (n : Nat) :
    (natToDigits n).foldl (fun a c => a * 10 + (c.toNat - 48)) 0 = n := by
  suffices h : ∀ acc, (natToDigits n).foldl (fun a c => a * 10 + (c.toNat - 48)) acc =
      acc * 10 ^ (natToDigits n).length + n by
    simpa using h 0
  induction n using natToDigits.induct with
  | case1 n h =>
    intro acc
    rw [natToDigits, dif_pos h]
    simp only [List.foldl_cons, List.foldl_nil, List.length_singleton]
    rw [digitChar_toNat h]
    omega
  | case2 n h ih =>
    intro acc
    rw [natToDigits, dif_neg h]
    rw [List.foldl_append, List.length_append]
    rw [ih acc]
    simp only [List.foldl_cons, List.foldl_nil, List.length_singleton]
    rw [digitChar_toNat (by omega)]
    rw [pow_add, pow_one, ← Nat.mul_assoc]
    generalize acc * 10 ^ (natToDigits (n / 10)).length = A
    omega

theorem takeWhile_append_all {p : Char → Bool} {ds rest : Str}
    (hall : ∀ c ∈ ds, p c = true)
    (hrest : rest = [] ∨ ∃ c cs, rest = c :: cs ∧ p c = false) :
    (ds ++ rest).takeWhile p = ds ∧ (ds ++ rest).dropWhile p = rest := by
  induction ds with
  | nil =>
    simp only [List.nil_append]
    rcases hrest with rfl | ⟨c, cs, rfl, hc⟩
    · simp
    · simp [List.takeWhile, List.dropWhile, hc]
  | cons d ds ih =>
    have hd : p d = true := hall d (by simp)
    have hih := ih (fun c hc => hall c (by simp [hc]))
    simp only [List.cons_append, List.takeWhile_cons, List.dropWhile_cons, hd, if_true]
    simp [hih.1, hih.2]

theorem headNotDigit_cases {rest : Str} (h : headNotDigit rest) :
    rest = [] ∨ ∃ c cs, rest = c :: cs ∧ c.isDigit = false := by
  cases rest with
  | nil => exact Or.inl rfl
  | cons c cs => exact Or.inr ⟨c, cs, rfl, h⟩

theorem parseNat_digits {n : Nat} {rest : Str} (h : headNotDigit rest) :
    parseNat (natToDigits n ++ rest) = some (n, rest) := by
  have hall : ∀ c ∈ natToDigits n, (fun c : Char => c.isDigit) c = true :=
    fun c hc => natToDigits_all_digit hc
  obtain ⟨ht, hd⟩ := takeWhile_append_all hall (headNotDigit_cases h)
  rw [parseNat, ht, hd, if_neg (natToDigits_ne_nil n), natToDigits_foldl n]

/-- The serialized form of an integer parses back, up to a non-digit boundary. -/
theorem parseNumber_intToChars {i : Int} {rest : Str} (h : headNotDigit rest) :
    parseNumber (intToChars i ++ rest) = some (Value.num i, rest) := by
  rw [intToChars]
  by_cases hneg : i < 0
  · rw [if_pos hneg, List.cons_append, parseNumber, if_pos rfl, parseNat_digits h]
    have hi : (((-i).toNat : Nat) : Int) = -i := by omega
    simp [Option.map, hi]
  · rw [if_neg hneg]
    have hne := natToDigits_ne_nil i.toNat
    cases hnd : natToDigits i.toNat with
    | nil => exact absurd hnd hne
    | cons d ds =>
      have hd : d.isDigit = true := natToDigits_all_digit (n := i.toNat) (by rw [hnd]; simp)
      have hdm : d ≠ '-' := by
        intro he
        rw [he] at hd
        simp [Char.isDigit] at hd
      have hred : parseNumber (d :: (ds ++ rest)) =
          Option.map (fun p => (Value.num (p.1 : Int), p.2)) (parseNat (d :: (ds ++ rest))) := by
        rw [parseNumber.eq_def]
        exact if_neg hdm
      rw [List.cons_append, hred, ← List.cons_append, ← hnd, parseNat_digits h]
      have hi : ((i.toNat : Nat) : Int) = i := by omega
      simp [Option.map, hi]

/-! ## JSON strings

serde_json escapes `"` and `\\`, uses the short escapes `\b \t \n \f \r`,
writes any other control character as `\u00XX` with lowercase hex, and writes
every other character literally. Its parser rejects raw control characters and
understands the standard escapes (`\uXXXX` outside the surrogate range; the
serializer under this store never emits surrogate escapes). -/

/-- serde_json's escape of one character. -/
def escapeJsonChar (c : Char) : Str :=
  if c = '"' then ['\\', '"']
  else if c = '\\' then ['\\', '\\']
  else if c.toNat = 8 then ['\\', 'b']
  else if c.toNat = 9 then ['\\', 't']
  else if c.toNat = 10 then ['\\', 'n']
  else if c.toNat = 12 then ['\\', 'f']
  else if c.toNat = 13 then ['\\', 'r']
  else if c.toNat < 32 then
    ['\\', 'u', '0', '0', hexDigitChar (c.toNat / 16), hexDigitChar (c.toNat % 16)]
  else [c]

/-- serde_json's escape of a string (content between the surrounding quotes). -/
def escapeStr : Str → Str
  | [] => []
  | c :: s => escapeJsonChar c ++ escapeStr s

/-- Value of a hexadecimal digit character. -/
def hexVal (c : Char) : Option Nat :=
  if 48 ≤ c.toNat ∧ c.toNat ≤ 57 then some (c.toNat - 48)
  else if 97 ≤ c.toNat ∧ c.toNat ≤ 102 then some (c.toNat - 87)
  else if 65 ≤ c.toNat ∧ c.toNat ≤ 70 then some (c.toNat - 55)
  else none

/-- Parse the body of a JSON string up to and past the closing quote, returning
the unescaped content and the remaining input. -/
def parseStringBody : Str → Option (Str × Str)
  | [] => none
  | c :: rest =>
    if c = '"' then some ([], rest)
    else if c = '\\' then
      match rest with
      | [] => none
      | e :: rest₁ =>
        if e = '"' then (parseStringBody rest₁).map (fun p => ('"' :: p.1, p.2))
        else if e = '\\' then (parseStringBody rest₁).map (fun p => ('\\' :: p.1, p.2))
        else if e = '/' then (parseStringBody rest₁).map (fun p => ('/' :: p.1, p.2))
        else if e = 'b' then (parseStringBody rest₁).map (fun p => (Char.ofNat 8 :: p.1, p.2))
        else if e = 'f' then (parseStringBody rest₁).map (fun p => (Char.ofNat 12 :: p.1, p.2))
        else if e = 'n' then (parseStringBody rest₁).map (fun p => (Char.ofNat 10 :: p.1, p.2))
        else if e = 'r' then (parseStringBody rest₁).map (fun p => (Char.ofNat 13 :: p.1, p.2))
        else if e = 't' then (parseStringBody rest₁).map (fun p => (Char.ofNat 9 :: p.1, p.2))
        else if e = 'u' then
          match rest₁ with
          | [] => none
          | h₁ :: r₁ =>
            match r₁ with
            | [] => none
            | h₂ :: r₂ =>
              match r₂ with
              | [] => none
              | h₃ :: r₃ =>
                match r₃ with
                | [] => none
                | h₄ :: rest₂ =>
                  match hexVal h₁, hexVal h₂, hexVal h₃, hexVal h₄ with
                  | some n₁, some n₂, some n₃, some n₄ =>
                    if n₁ * 4096 + n₂ * 256 + n₃ * 16 + n₄ < 0xD800 ∨
                        0xE000 ≤ n₁ * 4096 + n₂ * 256 + n₃ * 16 + n₄ then
                      (parseStringBody rest₂).map
                        (fun p => (Char.ofNat (n₁ * 4096 + n₂ * 256 + n₃ * 16 + n₄) :: p.1, p.2))
                    else none
                  | _, _, _, _ => none
        else none
    else if c.toNat < 32 then none
    else (parseStringBody rest).map (fun p => (c :: p.1, p.2))

theorem hexVal_hexDigitChar : ∀ d, d < 16 → hexVal (hexDigitChar d) = some d := by
  decide

theorem parseStringBody_quote (rest : Str) :
    parseStringBody ('"' :: rest) = some ([], rest) := by
  rw [parseStringBody.eq_def]
  simp

/-- Unescaping an escaped string body recovers it, leaving the input after the
closing quote. -/
theorem parseStringBody_escapeStr (s : Str) (rest : Str) :
    parseStringBody (escapeStr s ++ '"' :: rest) = some (s, rest) := by
  induction s with
  | nil =>
    rw [escapeStr, List.nil_append]
    exact parseStringBody_quote rest
  | cons c cs ih =>
    rw [escapeStr, List.append_assoc, escapeJsonChar]
    have hofNat : Char.ofNat c.toNat = c := Char.ofNat_toNat c
    by_cases h₁ : c = '"'
    · subst h₁
      rw [if_pos rfl, List.cons_append, List.cons_append, List.nil_append,
        parseStringBody.eq_def]
      simp [ih]
    · rw [if_neg h₁]
      by_cases h₂ : c = '\\'
      · subst h₂
        rw [if_pos rfl, List.cons_append, List.cons_append, List.nil_append,
          parseStringBody.eq_def]
        simp [ih]
      · rw [if_neg h₂]
        by_cases h₃ : c.toNat = 8
        · rw [if_pos h₃]
          have hc : Char.ofNat 8 = c := by rw [← h₃]; exact hofNat
          rw [List.cons_append, List.cons_append, List.nil_append, parseStringBody.eq_def]
          simp [ih]
          exact hc
        · rw [if_neg h₃]
          by_cases h₄ : c.toNat = 9
          · rw [if_pos h₄]
            have hc : Char.ofNat 9 = c := by rw [← h₄]; exact hofNat
            rw [List.cons_append, List.cons_append, List.nil_append, parseStringBody.eq_def]
            simp [ih]
            exact hc
          · rw [if_neg h₄]
            by_cases h₅ : c.toNat = 10
            · rw [if_pos h₅]
              have hc : Char.ofNat 10 = c := by rw [← h₅]; exact hofNat
              rw [List.cons_append, List.cons_append, List.nil_append, parseStringBody.eq_def]
              simp [ih]
              exact hc
            · rw [if_neg h₅]
              by_cases h₆ : c.toNat = 12
              · rw [if_pos h₆]
                have hc : Char.ofNat 12 = c := by rw [← h₆]; exact hofNat
                rw [List.cons_append, List.cons_append, List.nil_append, parseStringBody.eq_def]
                simp [ih]
                exact hc
              · rw [if_neg h₆]
                by_cases h₇ : c.toNat = 13
                · rw [if_pos h₇]
                  have hc : Char.ofNat 13 = c := by rw [← h₇]; exact hofNat
                  rw [List.cons_append, List.cons_append, List.nil_append,
                    parseStringBody.eq_def]
                  simp [ih]
                  exact hc
                · rw [if_neg h₇]
                  by_cases h₈ : c.toNat < 32
                  · rw [if_pos h₈]
                    have e₁ : hexVal (hexDigitChar (c.toNat / 16)) = some (c.toNat / 16) :=
                      hexVal_hexDigitChar _ (by omega)
                    have e₂ : hexVal (hexDigitChar (c.toNat % 16)) = some (c.toNat % 16) :=
                      hexVal_hexDigitChar _ (by omega)
                    have hv0 : hexVal '0' = some 0 := by decide
                    have he : 0 * 4096 + 0 * 256 + c.toNat / 16 * 16 + c.toNat % 16 =
                        c.toNat := by omega
                    have hlt : c.toNat < 55296 := by omega
                    simp only [List.cons_append, List.nil_append]
                    rw [parseStringBody.eq_def]
                    simp [e₁, e₂, hv0, he, hlt, ih]
                    refine ⟨by omega, ?_⟩
                    have he2 : c.toNat / 16 * 16 + c.toNat % 16 = c.toNat := by omega
                    rw [he2]
                    exact hofNat
                  · rw [if_neg h₈]
                    rw [List.cons_append, List.nil_append, parseStringBody.eq_def]
                    simp [h₁, h₂, h₈, ih]

/-! ## JSON values

`serde_json::to_string` (compact form) and `serde_json::from_slice`'s grammar
for the values this store round-trips. The recursive-descent parser is given
explicit fuel (a modelling artifact: every mutual call decrements it once, and
`jsonParse` supplies enough for any input it could succeed on). -/

mutual

/-- `serde_json::to_string`, compact (no whitespace). -/
def jsonSerialize : Value → Str
  | .null => ('n' :: ['u', 'l', 'l'])
  | .bool true => ('t' :: ['r', 'u', 'e'])
  | .bool false => ('f' :: ['a', 'l', 's', 'e'])
  | .num i => intToChars i
  | .str s => '"' :: escapeStr s ++ ['"']
  | .arr [] => ['[', ']']
  | .arr (v :: vs) => '[' :: (jsonSerialize v ++ serArrTail vs) ++ [']']
  | .obj [] => ['{', '}']
  | .obj (m :: ms) => '{' :: (serMember m ++ serObjTail ms) ++ ['}']

/-- `,`-prefixed serializations of the remaining array elements. -/
def serArrTail : List Value → Str
  | [] => []
  | v :: vs => ',' :: jsonSerialize v ++ serArrTail vs

/-- One `"key":value` object member. -/
def serMember : Str × Value → Str
  | (k, v) => '"' :: escapeStr k ++ '"' :: ':' :: jsonSerialize v

/-- `,`-prefixed serializations of the remaining object members. -/
def serObjTail : List (Str × Value) → Str
  | [] => []
  | m :: ms => ',' :: serMember m ++ serObjTail ms

end

/-- Check that the input starts with the given literal characters. -/
def expectLit : Str → Str → Option Str
  | [], input => some input
  | _ :: _, [] => none
  | c :: cs, x :: xs => if x = c then expectLit cs xs else none

mutual

/-- One JSON value (fuel-indexed recursive descent). -/
def parseValue : Nat → Str → Option (Value × Str)
  | 0, _ => none
  | _ + 1, [] => none
  | f + 1, c :: rest =>
    if c = 'n' then (expectLit ['u', 'l', 'l'] rest).map (fun r => (Value.null, r))
    else if c = 't' then (expectLit ['r', 'u', 'e'] rest).map (fun r => (Value.bool true, r))
    else if c = 'f' then (expectLit ['a', 'l', 's', 'e'] rest).map (fun r => (Value.bool false, r))
    else if c = '"' then (parseStringBody rest).map (fun p => (Value.str p.1, p.2))
    else if c = '[' then
      match rest with
      | [] => none
      | r₀ :: rs =>
        if r₀ = ']' then some (Value.arr [], rs)
        else (parseElems f (r₀ :: rs)).map (fun p => (Value.arr p.1, p.2))
    else if c = '{' then
      match rest with
      | [] => none
      | r₀ :: rs =>
        if r₀ = '}' then some (Value.obj [], rs)
        else (parseMembers f (r₀ :: rs)).map (fun p => (Value.obj p.1, p.2))
    else if c = '-' ∨ c.isDigit then parseNumber (c :: rest)
    else none

/-- A non-empty `,`-separated element list up to and past the closing `]`. -/
def parseElems : Nat → Str → Option (List Value × Str)
  | 0, _ => none
  | f + 1, input =>
    match parseValue f input with
    | none => none
    | some (v, r) =>
      match r with
      | [] => none
      | d :: r' =>
        if d = ',' then (parseElems f r').map (fun p => (v :: p.1, p.2))
        else if d = ']' then some ([v], r')
        else none

/-- A non-empty `,`-separated member list up to and past the closing `}`. -/
def parseMembers : Nat → Str → Option (List (Str × Value) × Str)
  | 0, _ => none
  | f + 1, input =>
    match input with
    | [] => none
    | q :: r₀ =>
      if q = '"' then
        match parseStringBody r₀ with
        | none => none
        | some (k, r₁) =>
          match r₁ with
          | [] => none
          | colon :: r₂ =>
            if colon = ':' then
              match parseValue f r₂ with
              | none => none
              | some (v, r₃) =>
                match r₃ with
                | [] => none
                | d :: r₄ =>
                  if d = ',' then (parseMembers f r₄).map (fun p => ((k, v) :: p.1, p.2))
                  else if d = '}' then some ([(k, v)], r₄)
                  else none
            else none
      else none

end

/-- `serde_json::from_slice` on the characters of a document: parse one value
and require the input to be fully consumed. -/
def jsonParse (s : Str) : Option Value :=
  match parseValue (s.length + 1) s with
  | some (v, []) => some v
  | _ => none

mutual

/-- Fuel sufficient for `parseValue` on a serialization of `v`. -/
def fuelV : Value → Nat
  | .arr (v :: vs) => 1 + fuelElems (v :: vs)
  | .obj (m :: ms) => 1 + fuelMems (m :: ms)
  | _ => 1

def fuelElems : List Value → Nat
  | [] => 0
  | v :: vs => 1 + max (fuelV v) (fuelElems vs)

def fuelMems : List (Str × Value) → Nat
  | [] => 0
  | (_, v) :: ms => 1 + max (fuelV v) (fuelMems ms)

end

theorem expectLit_append (lit rest : Str) : expectLit lit (lit ++ rest) = some rest := by
  induction lit with
  | nil => rfl
  | cons c cs ih => simp [expectLit, ih]

theorem digitChar_ne {d : Nat} (hd : d < 10) {c : Char} (hc : c.toNat < 48 ∨ 57 < c.toNat) :
    digitChar d ≠ c := by
  intro he
  have h := digitChar_toNat hd
  rw [he] at h
  omega

theorem natToDigits_head (n : Nat) :
    ∃ d tail, d < 10 ∧ natToDigits n = digitChar d :: tail := by
  induction n using natToDigits.induct with
  | case1 n h => exact ⟨n, [], h, by rw [natToDigits, dif_pos h]⟩
  | case2 n h ih =>
    obtain ⟨d, tail, hd, htail⟩ := ih
    exact ⟨d, tail ++ [digitChar (n % 10)], hd, by
      rw [natToDigits, dif_neg h, htail, List.cons_append]⟩

theorem intToChars_shape (i : Int) :
    (∃ tail, intToChars i = '-' :: tail) ∨
      (∃ d tail, d < 10 ∧ intToChars i = digitChar d :: tail) := by
  rw [intToChars]
  by_cases hneg : i < 0
  · exact Or.inl ⟨natToDigits (-i).toNat, by rw [if_pos hneg]⟩
  · obtain ⟨d, tail, hd, htail⟩ := natToDigits_head i.toNat
    exact Or.inr ⟨d, tail, hd, by rw [if_neg hneg, htail]⟩

/-- Every serialization starts with a character other than `]` and `}`
(relevant when deciding between an empty and a non-empty array/object). -/
theorem jsonSerialize_head (v : Value) :
    ∃ c cs, jsonSerialize v = c :: cs ∧ c ≠ ']' ∧ c ≠ '}' := by
  cases v with
  | null => exact ⟨'n', _, rfl, by decide, by decide⟩
  | bool b =>
    cases b with
    | true => exact ⟨'t', _, rfl, by decide, by decide⟩
    | false => exact ⟨'f', _, rfl, by decide, by decide⟩
  | num i =>
    rcases intToChars_shape i with ⟨tail, htail⟩ | ⟨d, tail, hd, htail⟩
    · exact ⟨'-', tail, by rw [jsonSerialize, htail], by decide, by decide⟩
    · refine ⟨digitChar d, tail, by rw [jsonSerialize, htail], ?_, ?_⟩
      · exact digitChar_ne hd (by right; decide)
      · exact digitChar_ne hd (by right; decide)
  | str s => exact ⟨'"', _, rfl, by decide, by decide⟩
  | arr xs =>
    cases xs with
    | nil => exact ⟨'[', _, rfl, by decide, by decide⟩
    | cons v vs => exact ⟨'[', _, rfl, by decide, by decide⟩
  | obj ms =>
    cases ms with
    | nil => exact ⟨'{', _, rfl, by decide, by decide⟩
    | cons m ms => exact ⟨'{', _, rfl, by decide, by decide⟩

theorem fuelV_pos (v : Value) : 1 ≤ fuelV v := by
  cases v with
  | arr xs => cases xs <;> simp [fuelV]
  | obj ms => cases ms <;> simp [fuelV]
  | null => simp [fuelV]
  | bool b => simp [fuelV]
  | num i => simp [fuelV]
  | str s => simp [fuelV]

theorem fuelElems_pos (v : Value) (vs : List Value) : 1 ≤ fuelElems (v :: vs) := by
  rw [fuelElems]
  omega

theorem fuelMems_pos (m : Str × Value) (ms : List (Str × Value)) : 1 ≤ fuelMems (m :: ms) := by
  obtain ⟨k, v⟩ := m
  rw [fuelMems]
  omega

/-- Round-trip of the JSON grammar: with sufficient fuel, parsing a
serialization (followed by any non-digit-leading remainder) succeeds and
consumes exactly the serialization. -/
theorem parse_ser_all : ∀ f : Nat,
    (∀ (v : Value) (rest : Str), fuelV v ≤ f → headNotDigit rest →
      parseValue f (jsonSerialize v ++ rest) = some (v, rest)) ∧
    (∀ (v : Value) (vs : List Value) (rest : Str), fuelElems (v :: vs) ≤ f →
      headNotDigit rest →
      parseElems f (jsonSerialize v ++ (serArrTail vs ++ (']' :: rest))) =
        some (v :: vs, rest)) ∧
    (∀ (m : Str × Value) (ms : List (Str × Value)) (rest : Str), fuelMems (m :: ms) ≤ f →
      headNotDigit rest →
      parseMembers f (serMember m ++ (serObjTail ms ++ ('}' :: rest))) =
        some (m :: ms, rest)) := by
  intro f
  induction f with
  | zero =>
    refine ⟨?_, ?_, ?_⟩
    · intro v rest hfu _
      exact absurd (le_trans (fuelV_pos v) hfu) (by omega)
    · intro v vs rest hfu _
      exact absurd (le_trans (fuelElems_pos v vs) hfu) (by omega)
    · intro m ms rest hfu _
      exact absurd (le_trans (fuelMems_pos m ms) hfu) (by omega)
  | succ f ih =>
    refine ⟨?_, ?_, ?_⟩
    · -- parseValue
      intro v rest hfu hrest
      cases v with
      | null =>
        rw [jsonSerialize, show (['n', 'u', 'l', 'l'] ++ rest) = 'n' :: 'u' :: 'l' :: 'l' :: rest
          from rfl, parseValue.eq_def]
        simp [expectLit]
      | bool b =>
        cases b with
        | true =>
          rw [jsonSerialize, show (['t', 'r', 'u', 'e'] ++ rest) =
            't' :: 'r' :: 'u' :: 'e' :: rest from rfl, parseValue.eq_def]
          simp [expectLit]
        | false =>
          rw [jsonSerialize, show (['f', 'a', 'l', 's', 'e'] ++ rest) =
            'f' :: 'a' :: 'l' :: 's' :: 'e' :: rest from rfl, parseValue.eq_def]
          simp [expectLit]
      | num i =>
        have hnum : parseNumber (intToChars i ++ rest) = some (Value.num i, rest) :=
          parseNumber_intToChars hrest
        rcases intToChars_shape i with ⟨tail, htail⟩ | ⟨d, tail, hd, htail⟩
        · rw [htail, List.cons_append] at hnum
          rw [jsonSerialize, htail, List.cons_append, parseValue.eq_def]
          simp [hnum]
        · have hne₁ : digitChar d ≠ 'n' := digitChar_ne hd (by right; decide)
          have hne₂ : digitChar d ≠ 't' := digitChar_ne hd (by right; decide)
          have hne₃ : digitChar d ≠ 'f' := digitChar_ne hd (by right; decide)
          have hne₄ : digitChar d ≠ '"' := digitChar_ne hd (by left; decide)
          have hne₅ : digitChar d ≠ '[' := digitChar_ne hd (by right; decide)
          have hne₆ : digitChar d ≠ '{' := digitChar_ne hd (by right; decide)
          have hdig : (digitChar d).isDigit = true := digitChar_isDigit_all d hd
          rw [htail, List.cons_append] at hnum
          rw [jsonSerialize, htail, List.cons_append, parseValue.eq_def]
          simp [hne₁, hne₂, hne₃, hne₄, hne₅, hne₆, hdig, hnum]
      | str s =>
        rw [jsonSerialize, show ('"' :: escapeStr s ++ ['"']) ++ rest =
          '"' :: (escapeStr s ++ ('"' :: rest)) by simp, parseValue.eq_def]
        simp [parseStringBody_escapeStr]
      | arr xs =>
        cases xs with
        | nil =>
          rw [jsonSerialize, show (['[', ']'] ++ rest) = '[' :: ']' :: rest from rfl,
            parseValue.eq_def]
          simp
        | cons v vs =>
          obtain ⟨c₀, cs₀, hser, hne₁, hne₂⟩ := jsonSerialize_head v
          have hfe : fuelElems (v :: vs) ≤ f := by
            rw [fuelV] at hfu
            omega
          have hIH := ih.2.1 v vs rest hfe hrest
          rw [jsonSerialize, show ('[' :: (jsonSerialize v ++ serArrTail vs) ++ [']']) ++ rest =
            '[' :: (jsonSerialize v ++ (serArrTail vs ++ (']' :: rest))) by simp,
            hser, List.cons_append, parseValue.eq_def]
          simp only [reduceIte, if_neg hne₁]
          rw [← List.cons_append, ← hser, hIH]
          simp
      | obj ms =>
        cases ms with
        | nil =>
          rw [jsonSerialize, show (['{', '}'] ++ rest) = '{' :: '}' :: rest from rfl,
            parseValue.eq_def]
          simp
        | cons m ms =>
          obtain ⟨k, v⟩ := m
          have hfm : fuelMems ((k, v) :: ms) ≤ f := by
            rw [fuelV] at hfu
            omega
          have hIH := ih.2.2 (k, v) ms rest hfm hrest
          rw [jsonSerialize, show ('{' :: (serMember (k, v) ++ serObjTail ms) ++ ['}']) ++ rest =
            '{' :: (serMember (k, v) ++ (serObjTail ms ++ ('}' :: rest))) by simp,
            show serMember (k, v) = '"' :: (escapeStr k ++ '"' :: ':' :: jsonSerialize v)
            from rfl, List.cons_append, parseValue.eq_def]
          simp only [reduceIte]
          rw [if_neg (by decide : ¬('"' : Char) = '}')]
          rw [← List.cons_append,
            ← show serMember (k, v) = '"' :: (escapeStr k ++ '"' :: ':' :: jsonSerialize v)
              from rfl, hIH]
          simp
    · -- parseElems
      intro v vs rest hfu hrest
      have hm₁ := Nat.le_max_left (fuelV v) (fuelElems vs)
      have hm₂ := Nat.le_max_right (fuelV v) (fuelElems vs)
      rw [fuelElems] at hfu
      have hrest' : headNotDigit (serArrTail vs ++ (']' :: rest)) := by
        cases vs with
        | nil =>
          rw [serArrTail, List.nil_append]
          show (']' : Char).isDigit = false
          decide
        | cons v' vs' =>
          rw [serArrTail, List.cons_append]
          show (',' : Char).isDigit = false
          decide
      have hpv := ih.1 v (serArrTail vs ++ (']' :: rest)) (by omega) hrest'
      rw [parseElems.eq_def]
      simp only [hpv]
      cases vs with
      | nil =>
        rw [serArrTail, List.nil_append]
        simp
      | cons v' vs' =>
        have hIH := ih.2.1 v' vs' rest (by omega) hrest
        rw [serArrTail]
        simp only [List.cons_append, List.append_assoc]
        simp only [List.cons_append] at hIH
        simp [hIH, List.append_assoc]
    · -- parseMembers
      intro m ms rest hfu hrest
      obtain ⟨k, v⟩ := m
      have hm₁ := Nat.le_max_left (fuelV v) (fuelMems ms)
      have hm₂ := Nat.le_max_right (fuelV v) (fuelMems ms)
      rw [fuelMems] at hfu
      have hrest' : headNotDigit (serObjTail ms ++ ('}' :: rest)) := by
        cases ms with
        | nil =>
          rw [serObjTail, List.nil_append]
          show ('}' : Char).isDigit = false
          decide
        | cons m' ms' =>
          rw [serObjTail, List.cons_append]
          show (',' : Char).isDigit = false
          decide
      have hpv := ih.1 v (serObjTail ms ++ ('}' :: rest)) (by omega) hrest'
      have hsb := parseStringBody_escapeStr k
        (':' :: (jsonSerialize v ++ (serObjTail ms ++ ('}' :: rest))))
      rw [show serMember (k, v) = '"' :: (escapeStr k ++ '"' :: ':' :: jsonSerialize v)
        from rfl]
      rw [parseMembers.eq_def]
      cases ms with
      | nil =>
        rw [serObjTail, List.nil_append] at hpv hsb ⊢
        simp [hsb, hpv, List.append_assoc]
      | cons m' ms' =>
        have hIH := ih.2.2 m' ms' rest (by omega) hrest
        rw [serObjTail] at hpv hsb ⊢
        simp only [List.cons_append, List.append_assoc] at hpv hsb hIH ⊢
        rw [hsb]
        simp [hpv, hIH]

mutual

/-- Fuel bounds: a serialization is long enough to cover the fuel its parse
needs. -/
theorem fuelV_le_len : ∀ v : Value, fuelV v ≤ (jsonSerialize v).length
  | .null => by simp [fuelV, jsonSerialize]
  | .bool true => by simp [fuelV, jsonSerialize]
  | .bool false => by simp [fuelV, jsonSerialize]
  | .num i => by
    rcases intToChars_shape i with ⟨tail, htail⟩ | ⟨d, tail, hd, htail⟩ <;>
      simp [fuelV, jsonSerialize, htail]
  | .str s => by simp [fuelV, jsonSerialize]
  | .arr [] => by simp [fuelV, jsonSerialize]
  | .arr (v :: vs) => by
    have h₂ := fuelElems_le_len (v :: vs)
    rw [fuelV, jsonSerialize]
    rw [serArrTail] at h₂
    simp only [List.length_cons, List.length_append, List.length_singleton] at h₂ ⊢
    omega
  | .obj [] => by simp [fuelV, jsonSerialize]
  | .obj (m :: ms) => by
    have h₂ := fuelMems_le_len (m :: ms)
    rw [fuelV, jsonSerialize]
    rw [serObjTail] at h₂
    simp only [List.length_cons, List.length_append, List.length_singleton] at h₂ ⊢
    omega

theorem fuelElems_le_len : ∀ vs : List Value, fuelElems vs ≤ (serArrTail vs).length
  | [] => by simp [fuelElems, serArrTail]
  | v :: vs => by
    have h₁ := fuelV_le_len v
    have h₂ := fuelElems_le_len vs
    have hm₁ := Nat.le_max_left (fuelV v) (fuelElems vs)
    have hm₂ := Nat.le_max_right (fuelV v) (fuelElems vs)
    have hmx : max (fuelV v) (fuelElems vs) ≤
        max ((jsonSerialize v).length) ((serArrTail vs).length) :=
      max_le_max h₁ h₂
    have hm₃ := max_le_iff.1 (le_refl
      (max ((jsonSerialize v).length) ((serArrTail vs).length)))
    rw [fuelElems, serArrTail]
    simp only [List.length_cons, List.length_append]
    omega

theorem fuelMems_le_len : ∀ ms : List (Str × Value), fuelMems ms ≤ (serObjTail ms).length
  | [] => by simp [fuelMems, serObjTail]
  | (k, v) :: ms => by
    have h₁ := fuelV_le_len v
    have h₂ := fuelMems_le_len ms
    have hm₁ := Nat.le_max_left (fuelV v) (fuelMems ms)
    have hm₂ := Nat.le_max_right (fuelV v) (fuelMems ms)
    have hmx : max (fuelV v) (fuelMems ms) ≤
        max ((jsonSerialize v).length) ((serObjTail ms).length) :=
      max_le_max h₁ h₂
    have hm₃ := max_le_iff.1 (le_refl
      (max ((jsonSerialize v).length) ((serObjTail ms).length)))
    rw [fuelMems, serObjTail, serMember]
    simp only [List.length_cons, List.length_append]
    omega

end

/-- JSON round-trip: parsing a serialization yields the value back. -/
theorem jsonParse_serialize (v : Value) : jsonParse (jsonSerialize v) = some v := by
  rw [jsonParse]
  have h := (parse_ser_all ((jsonSerialize v).length + 1)).1 v []
    (Nat.le_succ_of_le (fuelV_le_len v)) trivial
  rw [List.append_nil] at h
  rw [h]

/-! ## The persistence codec: `write_kvstore` and `read_kvstore` -/

/-- How a `read_kvstore` run can fail: an `Err` propagated with `?` from
`base64::decode` or `serde_json::from_slice` (the spec's `CorruptData`), or the
panic of the slice `&value[1..value.len() - 1]` when the range is invalid. -/
inductive DecodeErr where
  | corrupt : DecodeErr
  | panicked : DecodeErr
  deriving DecidableEq, Repr

deriving instance DecidableEq for Except

/-- The quote-stripping accommodation in `read_kvstore`: if the raw value
starts and ends with `"`, take `&value[1..value.len() - 1]`; for the
one-character value `"` that range is `1..0`, which panics in Rust. -/
def stripQuotes (value : Str) : Except DecodeErr Str :=
  if value.head? = some '"' ∧ value.getLast? = some '"' then
    if value.length = 1 then .error .panicked
    else .ok ((value.drop 1).dropLast)
  else .ok value

/-- One iteration of `read_kvstore`'s line loop over the target map. -/
def processLine (m : KVMap) (line : Str) : Except DecodeErr KVMap :=
  if (lineSegs line).1.isEmpty ∨ (lineSegs line).2.isEmpty then .ok m
  else
    match stripQuotes (lineSegs line).2 with
    | .error e => .error e
    | .ok v' =>
      match base64Decode v' with
      | none => .error .corrupt
      | some bytes =>
        match utf8Decode bytes with
        | none => .error .corrupt
        | some txt =>
          match jsonParse txt with
          | none => .error .corrupt
          | some json => .ok (insertSorted (lineSegs line).1 json m)

/-- `read_kvstore`'s loop: insertions accumulate in the target map; the first
failing line aborts the whole run (the `?` operator), leaving the insertions
already made. -/
def processLines (m : KVMap) : List Str → KVMap × Option DecodeErr
  | [] => (m, none)
  | l :: ls =>
    match processLine m l with
    | .ok m' => processLines m' ls
    | .error e => (m, some e)

/-- `read_kvstore`: split the file contents into lines and run the loop against
the given target map, returning the final map state and the error, if any. -/
def readKVStore (contents : Str) (m₀ : KVMap) : KVMap × Option DecodeErr :=
  processLines m₀ (rustLines contents)

/-- The base64 payload written for one value. -/
def payload (v : Value) : Str :=
  base64Encode (utf8Encode (jsonSerialize v))

/-- One line of `write_kvstore` output: `key|escaped_base64` plus newline. -/
def encodeEntry (k : Str) (v : Value) : Str :=
  k ++ '|' :: escapePipes (payload v) ++ ['\n']

/-- `write_kvstore`: the full rewritten file contents for a map. -/
def writeKVStore : KVMap → Str
  | [] => []
  | (k, v) :: rest => encodeEntry k v ++ writeKVStore rest

/-- Keys the line format can faithfully carry: non-empty, no delimiter, no
newline. -/
def goodKey (k : Str) : Prop := k ≠ [] ∧ '|' ∉ k ∧ '\n' ∉ k

instance : DecidablePred goodKey := fun k => by
  unfold goodKey
  infer_instance

theorem jsonSerialize_ne_nil (v : Value) : jsonSerialize v ≠ [] := by
  obtain ⟨c, cs, hser, -, -⟩ := jsonSerialize_head v
  rw [hser]
  simp

theorem utf8EncodeChar_ne_nil (c : Char) : utf8EncodeChar c ≠ [] := by
  rw [utf8EncodeChar]
  split
  · simp
  · split
    · simp
    · split <;> simp

theorem utf8Encode_ne_nil {s : Str} (h : s ≠ []) : utf8Encode s ≠ [] := by
  cases s with
  | nil => exact absurd rfl h
  | cons c cs =>
    rw [utf8Encode]
    intro hap
    rcases List.append_eq_nil.1 hap with ⟨h₁, -⟩
    exact utf8EncodeChar_ne_nil c h₁

theorem payload_ne_nil (v : Value) : payload v ≠ [] :=
  base64Encode_ne_nil (utf8Encode_ne_nil (jsonSerialize_ne_nil v))

theorem payload_no_specials {v : Value} {c : Char} (hc : c ∈ payload v) :
    c ≠ '|' ∧ c ≠ '\n' ∧ c ≠ '"' ∧ c ≠ '\r' :=
  base64Encode_no_specials (fun b hb => utf8Encode_lt_256 hb) hc

theorem base64Decode_payload (v : Value) :
    base64Decode (payload v) = some (utf8Encode (jsonSerialize v)) :=
  base64Decode_encode fun b hb => utf8Encode_lt_256 hb

/-- `read_kvstore` consumes one encoded line by inserting its entry. -/
theorem processLine_encodeEntry (m : KVMap) (k : Str) (v : Value) (hk : goodKey k) :
    processLine m (k ++ '|' :: payload v) = .ok (insertSorted k v m) := by
  obtain ⟨hne, hpipe, -⟩ := hk
  have hsplit : splitOnChar '|' (k ++ '|' :: payload v) = k :: [payload v] := by
    rw [splitOnChar_append _ hpipe,
      splitOnChar_not_mem (fun hmem => (payload_no_specials hmem).1 rfl)]
  have hsegs : lineSegs (k ++ '|' :: payload v) = (k, payload v) := by
    rw [lineSegs, hsplit]
  rw [processLine, hsegs]
  simp only []
  have hkne : k.isEmpty = false := by
    cases k with
    | nil => exact absurd rfl hne
    | cons a as => rfl
  have hvne : (payload v).isEmpty = false := by
    cases hp : payload v with
    | nil => exact absurd hp (payload_ne_nil v)
    | cons a as => rfl
  rw [if_neg (by simp [hkne, hvne])]
  have hquote : stripQuotes (payload v) = .ok (payload v) := by
    rw [stripQuotes, if_neg]
    rintro ⟨hhead, -⟩
    cases hp : payload v with
    | nil => exact absurd hp (payload_ne_nil v)
    | cons a as =>
      rw [hp] at hhead
      simp only [List.head?_cons, Option.some.injEq] at hhead
      exact (payload_no_specials (by rw [hp]; simp)).2.2.1 hhead
  simp only [hquote, base64Decode_payload, utf8Decode_encode, jsonParse_serialize]

/-- `write_kvstore` output as newline-joined lines. -/
theorem writeKVStore_eq_join (m : KVMap) (hk : ∀ p ∈ m, goodKey p.1) :
    writeKVStore m =
      ((m.map (fun p => p.1 ++ '|' :: payload p.2)).map (· ++ ['\n'])).flatten := by
  induction m with
  | nil => rfl
  | cons p rest ih =>
    obtain ⟨k, v⟩ := p
    rw [writeKVStore, List.map_cons, List.map_cons, List.flatten_cons,
      ih fun q hq => hk q (by simp [hq])]
    have hpipe : '|' ∉ payload v := fun hmem => (payload_no_specials hmem).1 rfl
    rw [encodeEntry, escapePipes_no_pipe hpipe]

theorem rustLines_writeKVStore (m : KVMap) (hk : ∀ p ∈ m, goodKey p.1) :
    rustLines (writeKVStore m) = m.map (fun p => p.1 ++ '|' :: payload p.2) := by
  rw [writeKVStore_eq_join m hk]
  apply rustLines_join
  · intro l hl
    simp only [List.mem_map] at hl
    obtain ⟨⟨k, v⟩, hp, rfl⟩ := hl
    intro hmem
    rcases List.mem_append.1 hmem with h | h
    · exact (hk (k, v) hp).2.2 h
    · rcases List.mem_cons.1 h with h | h
      · exact absurd h.symm (by decide)
      · exact (payload_no_specials h).2.1 rfl
  · intro l hl
    simp only [List.mem_map] at hl
    obtain ⟨⟨k, v⟩, hp, rfl⟩ := hl
    intro hlast
    rw [List.getLast?_append] at hlast
    cases hy : ('|' :: payload v : Str).getLast? with
    | none =>
      rw [List.getLast?_eq_none_iff] at hy
      exact List.cons_ne_nil _ _ hy
    | some y =>
      rw [hy, Option.or_some] at hlast
      have hyr : y = '\r' := by injection hlast
      subst hyr
      obtain ⟨hne', heq⟩ := List.mem_getLast?_eq_getLast (Option.mem_def.2 hy)
      have hmem : ('\r' : Char) ∈ ('|' :: payload v : Str) := heq ▸ List.getLast_mem hne'
      rcases List.mem_cons.1 hmem with h | h
      · exact absurd h (by decide)
      · exact (payload_no_specials h).2.2.2 rfl

theorem insertSorted_append {k : Str} {v : Value} {done : KVMap}
    (h : ∀ p ∈ done, ltStr p.1 k = true) :
    insertSorted k v done = done ++ [(k, v)] := by
  induction done with
  | nil => rfl
  | cons p rest ih =>
    obtain ⟨k₀, v₀⟩ := p
    have h₀ : ltStr k₀ k = true := h (k₀, v₀) (by simp)
    have hlt : ltStr k k₀ = false := ltStr_asymm h₀
    have hne : k ≠ k₀ := fun he => ltStr_ne h₀ he.symm
    rw [insertSorted, if_neg (by simp [hlt]), if_neg hne,
      ih (fun p hp => h p (by simp [hp]))]
    rfl

/-- Inserting the entries of a sorted map in order into an initial segment
reproduces the whole map (`read_kvstore`'s insertions against an empty map). -/
theorem insertList_sorted_eq : ∀ (m done : KVMap), SortedMap (done ++ m) →
    List.foldl (fun acc p => insertSorted p.1 p.2 acc) done m = done ++ m
  | [], done, _ => by simp
  | (k, v) :: rest, done, h => by
    have hall : ∀ p ∈ done, ltStr p.1 k = true := by
      intro p hp
      exact (List.pairwise_append.1 h).2.2 p hp (k, v) (by simp)
    rw [List.foldl_cons]
    have hstep : insertSorted (k, v).1 (k, v).2 done = done ++ [(k, v)] :=
      insertSorted_append hall
    rw [hstep]
    have h' : SortedMap ((done ++ [(k, v)]) ++ rest) := by
      rw [List.append_assoc, List.singleton_append]
      exact h
    rw [insertList_sorted_eq rest (done ++ [(k, v)]) h']
    simp

theorem processLines_encoded : ∀ (m done : KVMap), (∀ p ∈ m, goodKey p.1) →
    processLines done (m.map (fun p => p.1 ++ '|' :: payload p.2)) =
      (List.foldl (fun acc p => insertSorted p.1 p.2 acc) done m, none)
  | [], done, _ => rfl
  | (k, v) :: rest, done, hk => by
    rw [List.map_cons, processLines]
    simp only [processLine_encodeEntry done k v (hk (k, v) (by simp))]
    rw [List.foldl_cons]
    exact processLines_encoded rest _ (fun p hp => hk p (by simp [hp]))

/-- Decode after encode is the identity on sorted maps with representable
keys. -/
theorem readKVStore_writeKVStore (m : KVMap) (hs : SortedMap m)
    (hk : ∀ p ∈ m, goodKey p.1) :
    readKVStore (writeKVStore m) [] = (m, none) := by
  rw [readKVStore, rustLines_writeKVStore m hk, processLines_encoded m [] hk,
    insertList_sorted_eq m [] (by simpa using hs)]
  simp

/-! ## The store operations

`KVStore`'s handlers, embedded sequentially: each operation takes the current
system state (in-memory map plus the persistence file contents) and returns
the new state together with the HTTP-level response. The lock acquisitions
serialize the handlers, so the sequential embedding is the linearized
behavior; `write_kvstore`'s file write is the `disk` update. -/

/-- The HTTP-level outcomes the handlers produce. -/
inductive Resp where
  | ok (body : Str) : Resp
  | conflict (body : Str) : Resp
  | notFound (body : Str) : Resp
  deriving DecidableEq, Repr

/-- The in-memory map together with the persistence file contents. -/
structure SysState where
  map : KVMap
  disk : Str
  deriving DecidableEq

/-- `KVStore::create_key_with_key`: conflict if present; otherwise insert,
then `write_kvstore`. -/
def createKeyWithKey (k : Str) (v : Value) (s : SysState) : SysState × Resp :=
  if containsKey k s.map then (s, .conflict ("Key already exists").data)
  else
    let m' := insertSorted k v s.map
    ({ map := m', disk := writeKVStore m' }, .ok (("Key created: ").data ++ k))

/-- `KVStore::insert` (the PATCH/upsert handler): unconditionally insert.
The handler does not call `write_kvstore`, so the file is left untouched. -/
def insertOp (k : Str) (v : Value) (s : SysState) : SysState × Resp :=
  ({ s with map := insertSorted k v s.map }, .ok (("Key created: ").data ++ k))

/-- `KVStore::delete`: remove if present. The handler does not call
`write_kvstore`, so the file is left untouched. -/
def deleteOp (k : Str) (s : SysState) : SysState × Resp :=
  if containsKey k s.map then
    ({ s with map := eraseKey k s.map }, .ok (("Key deleted: ").data ++ k))
  else (s, .notFound ("Key not found").data)

/-- `KVStore::get`: the value if present (the handler formats it with
`to_string`; the `.unwrap()` cannot fail after the `contains_key` check, so it
is modelled with a default), `NotFound` otherwise. -/
def getOp (k : Str) (s : SysState) : Except Str Value :=
  if !(containsKey k s.map) then .error ("Key not found").data
  else .ok ((lookupKey k s.map).getD Value.null)

/-- `KVStore::create_key`: draw 8-character candidates from the random-string
oracle until one is not in the map (the `while kvs.contains_key` loop takes
the first fresh candidate), insert it, then `write_kvstore`. The existence
hypothesis is the loop's termination condition. -/
def createKey (cands : Nat → Str) (v : Value) (s : SysState)
    (hex : ∃ n, containsKey (cands n) s.map = false) : SysState × Str :=
  let key := cands (Nat.find hex)
  let m' := insertSorted key v s.map
  ({ map := m', disk := writeKVStore m' }, key)

/-- `list_keys`'s collection loop: iterate, stopping once `count` reaches
`limit`. -/
def collectKV : List (Str × Value) → Nat → Nat → List (Str × Value)
  | [], _, _ => []
  | (k, v) :: rest, count, limit =>
    if count ≥ limit then [] else (k, v) :: collectKV rest (count + 1) limit

/-- `KVStore::list_keys`: defaults `skip = 0` and `limit = 1000`, skips, then
collects up to `limit` entries; `NotFound` when nothing was collected. -/
def listKeys (m : KVMap) (skip? limit? : Option Nat) : Except Str (List (Str × Value)) :=
  let skip := skip?.getD 0
  let limit := limit?.getD 1000
  let kvList := collectKV (List.drop skip m) 0 limit
  if kvList.length = 0 then .error ("No keys found").data
  else .ok kvList

/-! ## Clone

`impl Clone for KVStore` builds a new `Arc<Mutex<..>>` around a copy of the
current map. Stores are modelled as references (indices) into a heap of map
cells, so that the claim about independent storage is expressible. -/

/-- The heap of live `KVStore` map cells. -/
structure Heap where
  cells : List KVMap

/-- Dereference a store's cell (out-of-range reads default to the empty map;
the claims only use valid references). -/
def readRef (h : Heap) (r : Nat) : KVMap :=
  h.cells.getD r []

/-- `KVStore::clone`: allocate a fresh cell holding a copy of the source map,
returning the extended heap and the new reference. -/
def cloneStore (h : Heap) (r : Nat) : Heap × Nat :=
  (⟨h.cells ++ [readRef h r]⟩, h.cells.length)

/-- Apply a map mutation through a reference (what any mutating handler does
to the cell its `KVStore` wraps). -/
def mutateRef (h : Heap) (r : Nat) (f : KVMap → KVMap) : Heap :=
  ⟨h.cells.set r (f (readRef h r))⟩

theorem collectKV_eq_take :
    ∀ (l : List (Str × Value)) (count limit : Nat),
      collectKV l count limit = l.take (limit - count) := by
  intro l
  induction l with
  | nil => intro count limit; simp [collectKV]
  | cons p rest ih =>
    intro count limit
    obtain ⟨k, v⟩ := p
    rw [collectKV]
    by_cases h : count ≥ limit
    · rw [if_pos h, show limit - count = 0 from by omega]
      simp
    · rw [if_neg h, ih (count + 1) limit,
        show limit - count = (limit - (count + 1)) + 1 from by omega]
      rfl

/-! ## Claims -/

/-- C4: `List(skip, limit)` (defaults 0 and 1000) returns exactly the slice
`[skip, min(skip+limit, N))` of the entries in ascending key order, and
reports `NotFound` precisely when that slice is empty (empty store,
`skip ≥ N`, or `limit = 0`). -/
theorem listKeys_returns_sorted_slice (m : KVMap) (skip? limit? : Option Nat)
    (hs : SortedMap m) :
    listKeys m skip? limit? =
      (if (m.drop (skip?.getD 0)).take (limit?.getD 1000) = [] then
        Except.error ("No keys found").data
      else Except.ok ((m.drop (skip?.getD 0)).take (limit?.getD 1000))) ∧
    List.Pairwise (fun a b : Str × Value => ltStr a.1 b.1 = true)
      ((m.drop (skip?.getD 0)).take (limit?.getD 1000)) := by
  constructor
  · rw [listKeys]
    simp only [collectKV_eq_take, Nat.sub_zero, List.length_eq_zero]
  · exact hs.sublist ((List.take_sublist _ _).trans (List.drop_sublist _ _))

/-- Witness for C4: a three-entry store listed with `skip = 1`, `limit = 2`. -/
theorem listKeys_returns_sorted_slice_witness :
    listKeys [(['a'], Value.null), (['b'], Value.bool true), (['c'], Value.num 3)]
        (some 1) (some 2) =
      Except.ok [(['b'], Value.bool true), (['c'], Value.num 3)] ∧
    listKeys [(['a'], Value.null)] (some 5) none = Except.error ("No keys found").data := by
  have h₁ := listKeys_returns_sorted_slice
    [(['a'], Value.null), (['b'], Value.bool true), (['c'], Value.num 3)]
    (some 1) (some 2) (by decide)
  have h₂ := listKeys_returns_sorted_slice [(['a'], Value.null)] (some 5) none (by decide)
  exact ⟨by rw [h₁.1]; rfl, by rw [h₂.1]; rfl⟩

/-- C5: `CreateWithKey(key, value)` on a present key fails with `Conflict`,
mutating nothing and persisting nothing; on an absent key it inserts the pair,
persists, and returns success naming the key, leaving every other entry
unchanged. -/
theorem createKeyWithKey_spec (k : Str) (v : Value) (s : SysState) :
    (containsKey k s.map = true →
      createKeyWithKey k v s = (s, Resp.conflict ("Key already exists").data)) ∧
    (containsKey k s.map = false →
      (createKeyWithKey k v s).2 = Resp.ok (("Key created: ").data ++ k) ∧
      lookupKey k (createKeyWithKey k v s).1.map = some v ∧
      (∀ k', k' ≠ k →
        lookupKey k' (createKeyWithKey k v s).1.map = lookupKey k' s.map) ∧
      (createKeyWithKey k v s).1.disk = writeKVStore (createKeyWithKey k v s).1.map) := by
  constructor
  · intro h
    rw [createKeyWithKey, if_pos h]
  · intro h
    rw [createKeyWithKey, if_neg (by simp [h])]
    refine ⟨rfl, lookupKey_insertSorted_self k v s.map, ?_, rfl⟩
    intro k' hk'
    exact lookupKey_insertSorted_ne k k' v s.map hk'

/-- Witness for C5: conflict on a present key; insertion on an absent key. -/
theorem createKeyWithKey_spec_witness :
    createKeyWithKey ['k'] (Value.bool true) ⟨[(['k'], Value.null)], []⟩ =
      (⟨[(['k'], Value.null)], []⟩, Resp.conflict ("Key already exists").data) ∧
    lookupKey ['j']
      (createKeyWithKey ['j'] (Value.bool true) ⟨[(['k'], Value.null)], []⟩).1.map =
      some (Value.bool true) := by
  have h₁ := (createKeyWithKey_spec ['k'] (Value.bool true)
    ⟨[(['k'], Value.null)], []⟩).1 (by decide)
  have h₂ := (createKeyWithKey_spec ['j'] (Value.bool true)
    ⟨[(['k'], Value.null)], []⟩).2 (by decide)
  exact ⟨h₁, h₂.2.1⟩

/-- C8: immediately after a successful `Delete(k)`, `Get(k)` reports
`NotFound`; immediately after `Upsert(k, v)` or a successful
`CreateWithKey(k, v)`, `Get(k)` returns exactly `v`. -/
theorem get_after_mutation (k : Str) (v : Value) (s : SysState) (hs : SortedMap s.map) :
    ((deleteOp k s).2 = Resp.ok (("Key deleted: ").data ++ k) →
      getOp k (deleteOp k s).1 = Except.error ("Key not found").data) ∧
    getOp k (insertOp k v s).1 = Except.ok v ∧
    ((createKeyWithKey k v s).2 = Resp.ok (("Key created: ").data ++ k) →
      getOp k (createKeyWithKey k v s).1 = Except.ok v) := by
  refine ⟨?_, ?_, ?_⟩
  · intro hok
    by_cases h : containsKey k s.map
    · rw [deleteOp, if_pos h]
      have hnone : lookupKey k (eraseKey k s.map) = none := lookupKey_eraseKey_self hs
      rw [getOp]
      simp [containsKey, hnone]
    · rw [deleteOp, if_neg h] at hok
      exact absurd hok (by simp)
  · have hsome : lookupKey k (insertSorted k v s.map) = some v :=
      lookupKey_insertSorted_self k v s.map
    rw [insertOp, getOp]
    simp [containsKey, hsome]
  · intro hok
    by_cases h : containsKey k s.map
    · rw [createKeyWithKey, if_pos h] at hok
      exact absurd hok (by simp)
    · rw [createKeyWithKey, if_neg (by simp [h])] at hok ⊢
      have hsome : lookupKey k (insertSorted k v s.map) = some v :=
        lookupKey_insertSorted_self k v s.map
      rw [getOp]
      simp [containsKey, hsome]

/-- Witness for C8 at a concrete one-entry store. -/
theorem get_after_mutation_witness :
    getOp ['k'] (deleteOp ['k'] ⟨[(['k'], Value.null)], []⟩).1 =
      Except.error ("Key not found").data ∧
    getOp ['k'] (insertOp ['k'] (Value.bool true) ⟨[(['k'], Value.null)], []⟩).1 =
      Except.ok (Value.bool true) := by
  have h := get_after_mutation ['k'] (Value.bool true)
    ⟨[(['k'], Value.null)], []⟩ (by decide)
  exact ⟨h.1 (by decide), h.2.1⟩

/-- C10: cloning a store copies its map into fresh, independent storage: the
clone initially holds an equal map, and mutations through either reference
leave the other's map unchanged. -/
theorem cloneStore_independent (h : Heap) (r : Nat) (hr : r < h.cells.length) :
    (cloneStore h r).2 ≠ r ∧
    readRef (cloneStore h r).1 (cloneStore h r).2 = readRef h r ∧
    readRef (cloneStore h r).1 r = readRef h r ∧
    (∀ f, readRef (mutateRef (cloneStore h r).1 (cloneStore h r).2 f) r =
      readRef (cloneStore h r).1 r) ∧
    (∀ f, readRef (mutateRef (cloneStore h r).1 r f) (cloneStore h r).2 =
      readRef (cloneStore h r).1 (cloneStore h r).2) := by
  simp only [cloneStore, mutateRef, readRef, List.getD_eq_getElem?_getD]
  refine ⟨by omega, ?_, ?_, ?_, ?_⟩
  · rw [List.getElem?_append_right (le_refl _)]
    simp
  · rw [List.getElem?_append, if_pos hr]
  · intro f
    rw [List.getElem?_set_ne (by omega)]
  · intro f
    rw [List.getElem?_set_ne (by omega)]

/-- Witness for C10: a two-cell heap, cloning cell 0 and mutating through the
clone. -/
theorem cloneStore_independent_witness :
    (cloneStore ⟨[[(['k'], Value.null)]]⟩ 0).2 ≠ 0 ∧
    readRef (mutateRef (cloneStore ⟨[[(['k'], Value.null)]]⟩ 0).1
        (cloneStore ⟨[[(['k'], Value.null)]]⟩ 0).2 (eraseKey ['k'])) 0 =
      readRef (cloneStore ⟨[[(['k'], Value.null)]]⟩ 0).1 0 := by
  have h := cloneStore_independent ⟨[[(['k'], Value.null)]]⟩ 0 (by decide)
  exact ⟨h.1, h.2.2.2.1 (eraseKey ['k'])⟩

/-- C1: the claim says every successful mutating operation (including
`Upsert` and `Delete`) triggers a synchronous full rewrite of the persistence
file before completing. The handlers `KVStore::insert` and `KVStore::delete`
never call `write_kvstore`: at the failing input below, `Delete("k")` succeeds
and `Upsert("j", null)` succeeds, yet the file still holds the pre-operation
encoding, which no longer matches the updated map. -/
theorem delete_upsert_do_not_persist :
    (deleteOp ['k'] ⟨[(['k'], Value.null)], writeKVStore [(['k'], Value.null)]⟩).2 =
      Resp.ok (("Key deleted: ").data ++ ['k']) ∧
    (deleteOp ['k'] ⟨[(['k'], Value.null)], writeKVStore [(['k'], Value.null)]⟩).1.map = [] ∧
    (deleteOp ['k'] ⟨[(['k'], Value.null)], writeKVStore [(['k'], Value.null)]⟩).1.disk =
      writeKVStore [(['k'], Value.null)] ∧
    (deleteOp ['k'] ⟨[(['k'], Value.null)], writeKVStore [(['k'], Value.null)]⟩).1.disk ≠
      writeKVStore
        (deleteOp ['k'] ⟨[(['k'], Value.null)], writeKVStore [(['k'], Value.null)]⟩).1.map ∧
    (insertOp ['j'] Value.null ⟨[(['k'], Value.null)], writeKVStore [(['k'], Value.null)]⟩).2 =
      Resp.ok (("Key created: ").data ++ ['j']) ∧
    (insertOp ['j'] Value.null
        ⟨[(['k'], Value.null)], writeKVStore [(['k'], Value.null)]⟩).1.disk ≠
      writeKVStore
        (insertOp ['j'] Value.null
          ⟨[(['k'], Value.null)], writeKVStore [(['k'], Value.null)]⟩).1.map := by
  refine ⟨rfl, rfl, rfl, by decide, rfl, by decide⟩

/-- `read_kvstore`'s loop stops at the first failing line: the final state is
the map built from the preceding lines plus the single error of the bad
line. -/
theorem processLines_error :
    ∀ (lines : List Str) (m₀ m : KVMap) (e : DecodeErr),
      processLines m₀ lines = (m, some e) →
      ∃ pre bad post, lines = pre ++ bad :: post ∧
        processLines m₀ pre = (m, none) ∧ processLine m bad = .error e
  | [], m₀, m, e, h => by
    rw [processLines] at h
    exact absurd (congrArg Prod.snd h) (by simp)
  | l :: ls, m₀, m, e, h => by
    rw [processLines] at h
    cases hpl : processLine m₀ l with
    | error e' =>
      rw [hpl] at h
      obtain ⟨rfl, he⟩ : m₀ = m ∧ e' = e := by
        have h₁ := congrArg Prod.fst h
        have h₂ := congrArg Prod.snd h
        simp at h₁ h₂
        exact ⟨h₁, h₂⟩
      subst he
      exact ⟨[], l, ls, rfl, rfl, hpl⟩
    | ok m' =>
      rw [hpl] at h
      have h' : processLines m' ls = (m, some e) := h
      obtain ⟨pre, bad, post, hsplit, hpre, hbad⟩ := processLines_error ls m' m e h'
      refine ⟨l :: pre, bad, post, ?_, ?_, hbad⟩
      · rw [hsplit, List.cons_append]
      · show processLines m₀ (l :: pre) = (m, none)
        rw [processLines, hpl]
        exact hpre

/-- C2 (amended): on any input, a base64 or JSON failure on some line aborts
the whole decode with that single error — but the target map is not rolled
back: it keeps the insertions made for the lines preceding the first bad
line. -/
theorem readKVStore_error_partial (contents : Str) (m₀ m : KVMap) (e : DecodeErr)
    (h : readKVStore contents m₀ = (m, some e)) :
    ∃ pre bad post, rustLines contents = pre ++ bad :: post ∧
      processLines m₀ pre = (m, none) ∧ processLine m bad = .error e := by
  rw [readKVStore] at h
  exact processLines_error (rustLines contents) m₀ m e h

/-- Counterexample for C2 as stated: decoding a file whose second line is
corrupt fails with one error, but the target map (initially empty) has
already received the first line's entry — decode does yield a partially
populated map. -/
theorem readKVStore_partial_map_cex :
    readKVStore ("a|bnVsbA==".data ++ '\n' :: "b|%%%".data) [] =
      ([(['a'], Value.null)], some DecodeErr.corrupt) ∧
    ([(['a'], Value.null)] : KVMap) ≠ [] := by
  refine ⟨by decide, by decide⟩

/-- Witness for C2 (amended), instantiated at the counterexample input. -/
theorem readKVStore_error_partial_witness :
    ∃ pre bad post,
      rustLines ("a|bnVsbA==".data ++ '\n' :: "b|%%%".data) = pre ++ bad :: post ∧
      processLines [] pre = ([(['a'], Value.null)], none) ∧
      processLine [(['a'], Value.null)] bad = .error DecodeErr.corrupt :=
  readKVStore_error_partial ("a|bnVsbA==".data ++ '\n' :: "b|%%%".data) []
    [(['a'], Value.null)] DecodeErr.corrupt (by decide)

/-- C3 (amended): encoding a map and decoding the result reproduces it
exactly — identical key set and structurally equal values — for maps whose
keys the line format can carry (non-empty, no `|`, no newline). -/
theorem encode_decode_roundtrip (m : KVMap) (hs : SortedMap m)
    (hk : ∀ p ∈ m, goodKey p.1) :
    readKVStore (writeKVStore m) [] = (m, none) :=
  readKVStore_writeKVStore m hs hk

/-- Counterexample for C3 as stated (over every map): a key containing the
delimiter breaks the format — the entry `("a|b", null)` encodes to the line
`a|b|bnVsbA==`, whose decode takes `b` as the raw value and fails, so
decoding reproduces the empty key set rather than the original one. -/
theorem encode_decode_roundtrip_cex :
    readKVStore (writeKVStore [(['a', '|', 'b'], Value.null)]) [] =
      ([], some DecodeErr.corrupt) ∧
    ([(['a', '|', 'b'], Value.null)] : KVMap) ≠ [] := by
  refine ⟨by decide, by decide⟩

/-- Witness for C3 (amended) on a concrete two-entry map. -/
theorem encode_decode_roundtrip_witness :
    readKVStore (writeKVStore [(['k'], Value.null), (['m'], Value.bool true)]) [] =
      ([(['k'], Value.null), (['m'], Value.bool true)], none) :=
  encode_decode_roundtrip [(['k'], Value.null), (['m'], Value.bool true)]
    (by decide) (by decide)

/-- C6 (amended): decode splits each line at `|` and takes the first two
segments: `key` is the text before the first `|`, and `raw_value` is the text
strictly between the first and second `|` (the remainder only when no second
`|` exists; text after a second `|` is silently dropped). A line with an
empty key or empty raw value is skipped without error. -/
theorem lineSegs_spec (pre mid post : Str) (hp : '|' ∉ pre) (hm : '|' ∉ mid) :
    lineSegs (pre ++ '|' :: mid ++ '|' :: post) = (pre, mid) ∧
    lineSegs (pre ++ '|' :: mid) = (pre, mid) ∧
    lineSegs pre = (pre, []) ∧
    (∀ (m : KVMap) (line : Str),
      (lineSegs line).1.isEmpty ∨ (lineSegs line).2.isEmpty →
      processLine m line = .ok m) := by
  refine ⟨?_, ?_, ?_, ?_⟩
  · rw [lineSegs, List.append_assoc, List.cons_append, splitOnChar_append _ hp,
      splitOnChar_append _ hm]
  · rw [lineSegs, splitOnChar_append _ hp, splitOnChar_not_mem hm]
  · rw [lineSegs, splitOnChar_not_mem hp]
  · intro m line h
    rw [processLine, if_pos h]

/-- Counterexample for C6 as stated: on the line `k|bnVsbA==|x` the code's
raw value is the middle segment `bnVsbA==`, not the full remainder
`bnVsbA==|x`; the decode accordingly succeeds and stores `null`, whereas the
claimed remainder is not even valid base64. -/
theorem lineSegs_remainder_cex :
    (lineSegs ("k|bnVsbA==|x".data)).2 = "bnVsbA==".data ∧
    (lineSegs ("k|bnVsbA==|x".data)).2 ≠ "bnVsbA==|x".data ∧
    readKVStore ("k|bnVsbA==|x".data) [] = ([(['k'], Value.null)], none) ∧
    base64Decode ("bnVsbA==|x".data) = none := by
  refine ⟨by decide, by decide, by decide, by decide⟩

/-- Witness for C6 (amended) on concrete segments. -/
theorem lineSegs_spec_witness :
    lineSegs ("k".data ++ '|' :: "v".data ++ '|' :: "x".data) = ("k".data, "v".data) ∧
    processLine [] ("|abc".data) = .ok [] := by
  have h := lineSegs_spec "k".data "v".data "x".data (by decide) (by decide)
  exact ⟨h.1, h.2.2.2 [] ("|abc".data) (by decide)⟩

/-- C7: `CreateWithGeneratedKey(value)` returns a key of exactly 8
alphanumeric characters (the random-string oracle's guarantee), not present
in the map before the operation (the collision loop retries until fresh),
binds it to the given value, leaves every existing entry unchanged, and
preserves the distinct-keys invariant. -/
theorem createKey_generated_spec (cands : Nat → Str) (v : Value) (s : SysState)
    (hlen : ∀ j, (cands j).length = 8 ∧ ∀ c ∈ cands j, c.isAlphanum = true)
    (hex : ∃ n, containsKey (cands n) s.map = false)
    (hs : SortedMap s.map) :
    (createKey cands v s hex).2.length = 8 ∧
    (∀ c ∈ (createKey cands v s hex).2, c.isAlphanum = true) ∧
    containsKey (createKey cands v s hex).2 s.map = false ∧
    lookupKey (createKey cands v s hex).2 (createKey cands v s hex).1.map = some v ∧
    (∀ k', k' ≠ (createKey cands v s hex).2 →
      lookupKey k' (createKey cands v s hex).1.map = lookupKey k' s.map) ∧
    SortedMap (createKey cands v s hex).1.map := by
  refine ⟨(hlen _).1, (hlen _).2, Nat.find_spec hex, lookupKey_insertSorted_self _ v s.map,
    ?_, insertSorted_sorted _ v hs⟩
  intro k' hk'
  exact lookupKey_insertSorted_ne _ k' v s.map hk'

/-- Witness for C7: a constant oracle over the empty store. -/
theorem createKey_generated_spec_witness :
    (createKey (fun _ => "AAAAAAAA".data) Value.null ⟨[], []⟩ ⟨0, rfl⟩).2.length = 8 ∧
    lookupKey (createKey (fun _ => "AAAAAAAA".data) Value.null ⟨[], []⟩ ⟨0, rfl⟩).2
      (createKey (fun _ => "AAAAAAAA".data) Value.null ⟨[], []⟩ ⟨0, rfl⟩).1.map =
      some Value.null := by
  have hlen : ∀ _j : Nat, (("AAAAAAAA".data : Str)).length = 8 ∧
      ∀ c ∈ ("AAAAAAAA".data : Str), c.isAlphanum = true :=
    fun _ => ⟨by decide, by decide⟩
  have h := createKey_generated_spec (fun _ => "AAAAAAAA".data) Value.null ⟨[], []⟩
    hlen ⟨0, rfl⟩ (by decide)
  exact ⟨h.1, h.2.2.2.1⟩

/-- C9 (amended): the quote-stripping slice `&value[1..value.len() - 1]` is in
bounds for every raw value of length at least 2 that starts and ends with a
double quote, but on a line whose raw value is exactly the single character
`"` the range is `1..0` and `read_kvstore` panics — decode is not total. -/
theorem stripQuotes_spec (value : Str) (h2 : 2 ≤ value.length)
    (hq : value.head? = some '"' ∧ value.getLast? = some '"') :
    stripQuotes value = .ok ((value.drop 1).dropLast) ∧
    stripQuotes ['"'] = .error DecodeErr.panicked ∧
    (∀ (m : KVMap) (line : Str), processLine m line = .error DecodeErr.panicked →
      (lineSegs line).2 = ['"']) := by
  refine ⟨?_, by decide, ?_⟩
  · rw [stripQuotes, if_pos hq, if_neg (by omega)]
  · intro m line h
    rw [processLine] at h
    by_cases hskip : (lineSegs line).1.isEmpty ∨ (lineSegs line).2.isEmpty
    · rw [if_pos hskip] at h
      exact absurd h (by simp)
    · rw [if_neg hskip] at h
      cases hsq : stripQuotes (lineSegs line).2 with
      | error e =>
        rw [hsq] at h
        injection h with he
        subst he
        rw [stripQuotes] at hsq
        by_cases hqq : (lineSegs line).2.head? = some '"' ∧
            (lineSegs line).2.getLast? = some '"'
        · rw [if_pos hqq] at hsq
          by_cases hl : (lineSegs line).2.length = 1
          · cases hval : (lineSegs line).2 with
            | nil =>
              rw [hval] at hl
              simp at hl
            | cons c cs =>
              rw [hval] at hl hqq
              have hcs : cs = [] := by
                simp only [List.length_cons] at hl
                exact List.length_eq_zero.1 (by omega)
              subst hcs
              have hc : c = '"' := by simpa using hqq.1
              subst hc
              rfl
          · rw [if_neg hl] at hsq
            exact absurd hsq (by simp)
        · rw [if_neg hqq] at hsq
          exact absurd hsq (by simp)
      | ok v' =>
        simp only [hsq] at h
        cases hb : base64Decode v' with
        | none =>
          simp only [hb] at h
          injection h with he
          exact DecodeErr.noConfusion he
        | some bytes =>
          simp only [hb] at h
          cases hu : utf8Decode bytes with
          | none =>
            simp only [hu] at h
            injection h with he
            exact DecodeErr.noConfusion he
          | some txt =>
            simp only [hu] at h
            cases hj : jsonParse txt with
            | none =>
              simp only [hj] at h
              injection h with he
              exact DecodeErr.noConfusion he
            | some json =>
              simp only [hj] at h
              exact Except.noConfusion h

/-- Counterexample for C9 as stated: decode of the two-character line `k|"`
reaches the slice `1..0` and panics instead of returning a map or an
error-only result. -/
theorem stripQuotes_panic_cex :
    readKVStore ("k|".data ++ ['"']) [] = ([], some DecodeErr.panicked) := by
  decide

/-- Witness for C9 (amended) at the two-character raw value `""`. -/
theorem stripQuotes_spec_witness :
    stripQuotes ['"', '"'] = .ok [] ∧ stripQuotes ['"'] = .error DecodeErr.panicked := by
  have h := stripQuotes_spec ['"', '"'] (by decide) ⟨by decide, by decide⟩
  exact ⟨h.1, h.2.1⟩

end DistKV
